import Mathlib

/-!
Verification of the TOON (Token-Oriented Object Notation) encoder/decoder
from `pytoon/toon.py`, shallowly embedded in Lean.

Modelling conventions:
* Python `str` is modelled as `List Char` (`Str`).
* Python values handled by the codec are modelled by the inductive `Value`
  (None, bool, int, float, str, list, dict).  Python floats are modelled by
  their canonical textual form (`str(x)`), since floating point arithmetic is
  never performed by the codec: `dumps` prints `str(x)` and `loads` only checks
  that a token is accepted by `float(...)`.
* Python dicts are ordered association lists with unique keys; insertion
  (`d[k] = v`) is modelled by `dictSet`, which replaces in place or appends.
* Whitespace predicates model Python's `str.isspace` / `str.strip`.
-/

namespace PyToon

abbrev Str := List Char

/-- The characters Python's `str.isspace` (hence `str.strip()`) treats as
whitespace. -/
def pySpace (c : Char) : Bool :=
  c.toNat = 32 ∨ (9 ≤ c.toNat ∧ c.toNat ≤ 13) ∨ (28 ≤ c.toNat ∧ c.toNat ≤ 31) ∨
  c.toNat = 0x85 ∨ c.toNat = 0xa0 ∨ c.toNat = 0x1680 ∨
  (0x2000 ≤ c.toNat ∧ c.toNat ≤ 0x200a) ∨ c.toNat = 0x2028 ∨ c.toNat = 0x2029 ∨
  c.toNat = 0x202f ∨ c.toNat = 0x205f ∨ c.toNat = 0x3000

/-- Python `s.strip()`. -/
def strip (s : Str) : Str :=
  ((s.dropWhile pySpace).reverse.dropWhile pySpace).reverse

/-- Python `s.rstrip("\n")`. -/
def rstripNl (s : Str) : Str :=
  (s.reverse.dropWhile (· = '\n')).reverse

/-- Python `s.strip(c)` for a single character `c`. -/
def stripChar (c : Char) (s : Str) : Str :=
  ((s.dropWhile (· = c)).reverse.dropWhile (· = c)).reverse

/-- ASCII lower-casing, modelling `str.lower` on the characters relevant to the
keyword comparison in `_to_toon_primitive`. -/
def asciiLower (c : Char) : Char :=
  if 'A' ≤ c ∧ c ≤ 'Z' then Char.ofNat (c.toNat + 32) else c

def lowerS (s : Str) : Str := s.map asciiLower

/-- Model of Python `str.isidentifier` (restricted to ASCII identifiers, which
is what every key in this development uses): a letter or underscore. -/
def identStart (c : Char) : Bool :=
  (65 ≤ c.toNat ∧ c.toNat ≤ 90) ∨ (97 ≤ c.toNat ∧ c.toNat ≤ 122) ∨ c.toNat = 95

/-- A letter, underscore or digit. -/
def identCont (c : Char) : Bool :=
  identStart c ∨ (48 ≤ c.toNat ∧ c.toNat ≤ 57)

def isIdentifier : Str → Bool
  | [] => false
  | c :: rest => identStart c && rest.all identCont

/-- Decimal digits of `n` (big-endian), computed with `n` itself as fuel. -/
def natToStrAux : Nat → Nat → Str
  | 0, _ => []
  | _ + 1, 0 => []
  | fuel + 1, n + 1 =>
    natToStrAux fuel ((n + 1) / 10) ++ [Nat.digitChar ((n + 1) % 10)]

/-- Python `str(n)` for a natural number. -/
def natToStr (n : Nat) : Str := if n = 0 then ['0'] else natToStrAux n n

/-- Python `str(n)` for an integer. -/
def intToStr : Int → Str
  | .ofNat n => natToStr n
  | .negSucc n => '-' :: natToStr (n + 1)

/-- JSON escaping of one character, as in `json.dumps(·, ensure_ascii=False)`. -/
def escapeChar (c : Char) : Str :=
  if c = '"' then ['\\', '"']
  else if c = '\\' then ['\\', '\\']
  else if c = '\n' then ['\\', 'n']
  else if c = '\r' then ['\\', 'r']
  else if c = '\t' then ['\\', 't']
  else if c = '\x08' then ['\\', 'b']
  else if c = '\x0c' then ['\\', 'f']
  else if c.toNat < 0x20 then
    ['\\', 'u', '0', '0', Nat.digitChar (c.toNat / 16), Nat.digitChar (c.toNat % 16)]
  else [c]

def escapeStr : Str → Str
  | [] => []
  | c :: rest => escapeChar c ++ escapeStr rest

/-- Python `json.dumps(s, ensure_ascii=False)` on a string. -/
def jsonDumps (s : Str) : Str := '"' :: escapeStr s ++ ['"']

/-- `"sep".join(chunks)`. -/
def joinSep (sep : Str) : List Str → Str
  | [] => []
  | [l] => l
  | l :: ls => l ++ sep ++ joinSep sep ls

/-- The abstract value model: Python objects as seen by the codec. -/
inductive Value where
  | null
  | bool (b : Bool)
  | int (n : Int)
  | float (t : Str)
  | str (s : Str)
  | list (xs : List Value)
  | dict (es : List (Str × Value))
deriving Repr

mutual
def Value.beq : Value → Value → Bool
  | .null, .null => true
  | .bool a, .bool b => a == b
  | .int a, .int b => a == b
  | .float a, .float b => a == b
  | .str a, .str b => a == b
  | .list a, .list b => beqVList a b
  | .dict a, .dict b => beqVEntries a b
  | _, _ => false
def beqVList : List Value → List Value → Bool
  | [], [] => true
  | a :: as, b :: bs => Value.beq a b && beqVList as bs
  | _, _ => false
def beqVEntries : List (Str × Value) → List (Str × Value) → Bool
  | [], [] => true
  | (k, a) :: as, (l, b) :: bs => k == l && Value.beq a b && beqVEntries as bs
  | _, _ => false
end

theorem Value.beq_iff : ∀ a b : Value, Value.beq a b = true ↔ a = b := by
  apply Value.beq.induct (fun a b => Value.beq a b = true ↔ a = b)
    (fun as bs => beqVEntries as bs = true ↔ as = bs)
    (fun as bs => beqVList as bs = true ↔ as = bs)
  · simp [Value.beq]
  · intro a b; simp [Value.beq]
  · intro a b; simp [Value.beq]
  · intro a b; simp [Value.beq]
  · intro a b; simp [Value.beq]
  · intro a b ih; simpa [Value.beq] using ih
  · intro a b ih; simpa [Value.beq] using ih
  · intro t x h1 h2 h3 h4 h5 h6 h7
    cases t <;> cases x <;>
      first
        | exact (h1 rfl rfl).elim
        | exact (h2 _ _ rfl rfl).elim
        | exact (h3 _ _ rfl rfl).elim
        | exact (h4 _ _ rfl rfl).elim
        | exact (h5 _ _ rfl rfl).elim
        | exact (h6 _ _ rfl rfl).elim
        | exact (h7 _ _ rfl rfl).elim
        | simp [Value.beq]
  · simp [beqVList]
  · intro a as b bs ih1 ih2; simp [beqVList, ih1, ih2]
  · intro t x h1 h2
    cases t <;> cases x <;>
      first
        | exact (h1 rfl rfl).elim
        | exact (h2 _ _ _ _ rfl rfl).elim
        | simp [beqVList]
  · simp [beqVEntries]
  · intro k a as l b bs ih1 ih2
    simp [beqVEntries, ih1, ih2, Prod.ext_iff, and_assoc]
  · intro t x h1 h2
    cases t with
    | nil => cases x with
      | nil => exact (h1 rfl rfl).elim
      | cons hd tl => simp [beqVEntries]
    | cons hd tl =>
      obtain ⟨k, a⟩ := hd
      cases x with
      | nil => simp [beqVEntries]
      | cons hd2 tl2 =>
        obtain ⟨l, b⟩ := hd2
        exact (h2 _ _ _ _ _ _ rfl rfl).elim

instance : DecidableEq Value := fun a b => decidable_of_iff _ (Value.beq_iff a b)

/-- Structural induction for `Value` with list/dict children handled by
membership. -/
theorem Value.inductionOn (P : Value → Prop)
    (h1 : P .null) (h2 : ∀ b, P (.bool b)) (h3 : ∀ n, P (.int n))
    (h4 : ∀ t, P (.float t)) (h5 : ∀ s, P (.str s))
    (h6 : ∀ xs, (∀ x ∈ xs, P x) → P (.list xs))
    (h7 : ∀ es, (∀ e ∈ es, P e.2) → P (.dict es)) : ∀ v, P v := by
  intro v
  refine @Value.rec P (fun xs => ∀ x ∈ xs, P x) (fun es => ∀ e ∈ es, P e.2)
    (fun p => P p.2) h1 h2 h3 h4 h5 h6 h7 ?_ ?_ ?_ ?_ ?_ v
  · intro x hx; cases hx
  · intro hd tl ihh iht x hx
    rcases List.mem_cons.mp hx with rfl | hx
    · exact ihh
    · exact iht x hx
  · intro e he; cases he
  · intro hd tl ihh iht e he
    rcases List.mem_cons.mp he with rfl | he
    · exact ihh
    · exact iht e he
  · intro k v ih; exact ih

/-! ## Serialization helpers (`toon.py` lines 26–103) -/

/-- `INDENT_STR = "  "`. -/
def INDENT : Str := [' ', ' ']

/-- `INDENT_STR * indent`. -/
def padOf : Nat → Str
  | 0 => []
  | n + 1 => INDENT ++ padOf n

/-- `_is_primitive`. -/
def isPrimitive : Value → Bool
  | .null | .bool _ | .int _ | .float _ | .str _ => true
  | .list _ | .dict _ => false

/-- The quoting condition of `_to_toon_primitive` for a nonempty string. -/
def needsQuote (s : Str) : Bool :=
  s.any (fun ch => ch = ',' ∨ ch = '\n' ∨ ch = '\r') ||
  (match s.head? with | some c => pySpace c | none => false) ||
  (match s.getLast? with | some c => pySpace c | none => false) ||
  (match s.head? with | some c => c = '"' ∨ c = '\'' | none => false) ||
  (lowerS s = "null".toList || lowerS s = "true".toList || lowerS s = "false".toList)

/-- `_to_toon_primitive`: a TOON-safe token for a primitive.  (Only ever called
on primitives; list/dict branches are unreachable in `dumps`.) -/
def toToonPrimitive : Value → Str
  | .null => "null".toList
  | .bool true => "true".toList
  | .bool false => "false".toList
  | .int n => intToStr n
  | .float t => t
  | .str s =>
    if s = [] then ['"', '"']
    else if needsQuote s then jsonDumps s else s
  | .list _ => []
  | .dict _ => []

/-- `_escape_header_key`. -/
def escapeHeaderKey (k : Str) : Str :=
  if isIdentifier k then k else jsonDumps k

/-- Keys of a dict element (`d.keys()`), `[]` on non-dicts. -/
def keysOf : Value → List Str
  | .dict es => es.map (·.1)
  | _ => []

/-- Values of a dict element (`d.values()`), `[]` on non-dicts (mirrors the
`d.values() if isinstance(d, dict) else []` in `dumps`). -/
def dictValues : Value → List Value
  | .dict es => es.map (·.2)
  | _ => []

def isDictV : Value → Bool
  | .dict _ => true
  | _ => false

/-- Python `d.get(k)` with `None` default. -/
def dictGet (v : Value) (k : Str) : Value :=
  match v with
  | .dict es => ((es.find? (fun e => e.1 = k)).map (·.2)).getD .null
  | _ => .null

/-- Python set equality of two key lists. -/
def setEqS (a b : List Str) : Bool :=
  a.all (· ∈ b) && b.all (· ∈ a)

/-- Python string `<` (lexicographic by code point). -/
def strLt : Str → Str → Bool
  | [], [] => false
  | [], _ :: _ => true
  | _ :: _, [] => false
  | c :: cs, d :: ds => if c.toNat < d.toNat then true else if c = d then strLt cs ds else false

def strLe (a b : Str) : Bool := strLt a b || a == b

/-- Python `sorted` on a set of strings: sort the distinct elements. -/
def sortStrs (l : List Str) : List Str :=
  List.insertionSort (fun a b => strLe a b = true) l

/-- `_all_dicts_uniform`: `(is_uniform, keys_order)`. -/
def allDictsUniform (lst : List Value) : Bool × Option (List Str) :=
  match lst with
  | [] => (false, none)
  | first :: _ =>
    if !(lst.all isDictV) then (false, none)
    else
      let firstSet := keysOf first
      if lst.all (fun d => setEqS (keysOf d) firstSet) then
        let firstKeys := keysOf first
        if lst.all (fun d => keysOf d = firstKeys) then (true, some firstKeys)
        else (true, some (sortStrs firstSet.dedup))
      else (false, none)

/-! ## Serialization: `dumps` (`toon.py` lines 109–225)

The Python function takes `obj`, an optional top-level `name`, and an
indentation level.  Dataclass/namedtuple/object adaptation is outside the
value model; the `Value` cases cover the primitives / dict / list logic
verbatim. -/

/-- Truthiness of the `keys` component (`uniform and keys and ...`). -/
def keysTruthy : Option (List Str) → Bool
  | some (_ :: _) => true
  | _ => false

mutual

def dumps (obj : Value) (name : Option Str) (indent : Nat) : Str :=
  let pad := padOf indent
  match obj with
  | .dict es =>
    let childPad := match name with
      | some _ => padOf (indent + 1)
      | none => pad
    if es.isEmpty then
      match name with
      | some nm => pad ++ nm ++ ':' :: '\n' :: childPad ++ "\x7b\x7d\n".toList
      | none => pad ++ "\x7b\x7d\n".toList
    else
      let headerLines : List Str := match name with
        | some nm => [pad ++ nm ++ [':']]
        | none => []
      joinSep ['\n'] (headerLines ++ dumpEntries es childPad indent) ++ ['\n']
  | .list xs =>
    let n := xs.length
    if xs.isEmpty then
      match name with
      | some nm => pad ++ nm ++ "[0]:\n".toList
      | none => pad ++ "[]\n".toList
    else
      let u := allDictsUniform xs
      if u.1 && keysTruthy u.2 && xs.all (fun d => (dictValues d).all isPrimitive) then
        let keys := u.2.getD []
        let keysEscaped := joinSep [','] (keys.map escapeHeaderKey)
        let header := match name with
          | some nm => pad ++ nm ++ '[' :: natToStr n ++ ']' :: '\x7b' :: keysEscaped ++ "\x7d:".toList
          | none => pad ++ '[' :: natToStr n ++ ']' :: '\x7b' :: keysEscaped ++ "\x7d:".toList
        let rows := xs.map (fun d =>
          pad ++ INDENT ++ joinSep [','] (keys.map (fun k => toToonPrimitive (dictGet d k))))
        joinSep ['\n'] (header :: rows) ++ ['\n']
      else if xs.all isPrimitive then
        match name with
        | some nm =>
          pad ++ nm ++ '[' :: natToStr n ++ "]: ".toList ++
            joinSep [','] (xs.map toToonPrimitive) ++ ['\n']
        | none => pad ++ "- ".toList ++ joinSep [',', ' '] (xs.map toToonPrimitive) ++ ['\n']
      else
        let headerLines : List Str := match name with
          | some nm => [pad ++ nm ++ '[' :: natToStr n ++ "]:".toList]
          | none => []
        let itemIndentStr := match name with
          | some _ => pad ++ INDENT
          | none => pad
        let nestedIndent := match name with
          | some _ => indent + 2
          | none => indent + 1
        joinSep ['\n'] (headerLines ++ dumpItems xs itemIndentStr nestedIndent) ++ ['\n']
  | prim =>
    let val := toToonPrimitive prim
    match name with
    | some nm => pad ++ nm ++ ':' :: ' ' :: val ++ ['\n']
    | none => pad ++ val ++ ['\n']

def dumpEntries (es : List (Str × Value)) (childPad : Str) (indent : Nat) : List Str :=
  match es with
  | [] => []
  | (k, v) :: tl =>
    let key := escapeHeaderKey k
    (if isPrimitive v then
      [childPad ++ key ++ ':' :: ' ' :: toToonPrimitive v]
    else
      [childPad ++ key ++ [':'], rstripNl (dumps v none (indent + 1))]) ++
    dumpEntries tl childPad indent

def dumpItems (xs : List Value) (itemIndentStr : Str) (nestedIndent : Nat) : List Str :=
  match xs with
  | [] => []
  | item :: tl =>
    (if isPrimitive item then
      [itemIndentStr ++ '-' :: ' ' :: toToonPrimitive item]
    else
      [itemIndentStr ++ ['-'], rstripNl (dumps item none nestedIndent)]) ++
    dumpItems tl itemIndentStr nestedIndent

end

/-! ## Parsing helpers (`toon.py` lines 231–300) -/

/-- Digit-group parsing shared by Python `int(...)`/`float(...)` grammars:
`digit (("_")? digit)*`, returning the value. -/
def digitsValGo (acc : Nat) : Str → Option Nat
  | [] => some acc
  | '_' :: d :: rest =>
    if d.isDigit then digitsValGo (acc * 10 + (d.toNat - 48)) rest else none
  | ['_'] => none
  | d :: rest =>
    if d.isDigit then digitsValGo (acc * 10 + (d.toNat - 48)) rest else none

def digitsVal : Str → Option Nat
  | [] => none
  | c :: rest => if c.isDigit then digitsValGo (c.toNat - 48) rest else none

def digitsOK (s : Str) : Bool := (digitsVal s).isSome

/-- Python `int(tok)` on an already-stripped token, over ASCII digits.  This
is exact on ASCII tokens; Python additionally accepts non-ASCII Unicode
decimal digits (e.g. fullwidth digits), which no proven statement exercises:
the round-trip fragment admits printable-ASCII tokens only, and the other
claims' inputs are ASCII. -/
def pyIntParse (tok : Str) : Option Int :=
  match tok with
  | '+' :: rest => (digitsVal rest).map Int.ofNat
  | '-' :: rest => (digitsVal rest).map (fun n => -(Int.ofNat n : Int))
  | _ => (digitsVal tok).map Int.ofNat

/-- Split at the first `.`, if any. -/
def breakOnDot : Str → Str × Option Str
  | [] => ([], none)
  | '.' :: rest => ([], some rest)
  | c :: rest => let p := breakOnDot rest; (c :: p.1, p.2)

/-- Split at the first `e`/`E`, if any. -/
def breakOnExp : Str → Str × Option Str
  | [] => ([], none)
  | c :: rest =>
    if c = 'e' ∨ c = 'E' then ([], some rest)
    else let p := breakOnExp rest; (c :: p.1, p.2)

def mantissaOK (s : Str) : Bool :=
  match breakOnDot s with
  | (intPart, none) => digitsOK intPart
  | (intPart, some frac) =>
    (digitsOK intPart && (frac.isEmpty || digitsOK frac)) ||
    (intPart.isEmpty && digitsOK frac)

def expPartOK : Str → Bool
  | '+' :: d => digitsOK d
  | '-' :: d => digitsOK d
  | d => digitsOK d

def pyFloatNumeric (s : Str) : Bool :=
  match breakOnExp s with
  | (m, none) => mantissaOK m
  | (m, some e) => mantissaOK m && expPartOK e

def pyFloatBody (r : Str) : Bool :=
  lowerS r = "inf".toList || lowerS r = "infinity".toList ||
  lowerS r = "nan".toList || pyFloatNumeric r

/-- Whether Python `float(tok)` succeeds on an already-stripped token, over
ASCII digits (with underscores, signs, exponents and `inf`/`infinity`/`nan`).
Exact on ASCII tokens; as with `pyIntParse`, Python's extra acceptance of
non-ASCII Unicode decimal digits lies outside every proven statement. -/
def pyFloatAccepts (tok : Str) : Bool :=
  match tok with
  | '+' :: rest => pyFloatBody rest
  | '-' :: rest => pyFloatBody rest
  | _ => pyFloatBody tok

def hexVal (c : Char) : Option Nat :=
  if '0' ≤ c ∧ c ≤ '9' then some (c.toNat - 48)
  else if 'a' ≤ c ∧ c ≤ 'f' then some (c.toNat - 87)
  else if 'A' ≤ c ∧ c ≤ 'F' then some (c.toNat - 55)
  else none

/-- Value of four hex digits (`int(s, 16)` on the `XXXX` of a `\uXXXX`
escape), `none` if any is not a hex digit. -/
def hexVal4 (a b c d : Char) : Option Nat :=
  match hexVal a, hexVal b, hexVal c, hexVal d with
  | some ha, some hb, some hc, some hd => some (ha * 4096 + hb * 256 + hc * 16 + hd)
  | _, _, _, _ => none

mutual

/-- Body of a JSON string literal after the opening `"`, returning the decoded
content and what follows the closing quote.  Raw control characters are
rejected (Python's strict mode); `\uXXXX` escapes are accepted for Unicode
scalar values (lone surrogates are outside Lean's `Char` and fail, which the
caller turns into the verbatim-inner-text fallback). -/
def jsonStringBody : Str → Option (Str × Str)
  | [] => none
  | c :: rest =>
    if c = '"' then some ([], rest)
    else if c = '\\' then jsonEscapeSeq rest
    else if c.toNat < 0x20 then none
    else (jsonStringBody rest).map (fun p => (c :: p.1, p.2))

/-- Decoding of what follows a backslash inside a JSON string literal. -/
def jsonEscapeSeq : Str → Option (Str × Str)
  | [] => none
  | e :: rest =>
    if e = '"' then (jsonStringBody rest).map (fun p => ('"' :: p.1, p.2))
    else if e = '\\' then (jsonStringBody rest).map (fun p => ('\\' :: p.1, p.2))
    else if e = '/' then (jsonStringBody rest).map (fun p => ('/' :: p.1, p.2))
    else if e = 'b' then (jsonStringBody rest).map (fun p => ('\x08' :: p.1, p.2))
    else if e = 'f' then (jsonStringBody rest).map (fun p => ('\x0c' :: p.1, p.2))
    else if e = 'n' then (jsonStringBody rest).map (fun p => ('\n' :: p.1, p.2))
    else if e = 'r' then (jsonStringBody rest).map (fun p => ('\r' :: p.1, p.2))
    else if e = 't' then (jsonStringBody rest).map (fun p => ('\t' :: p.1, p.2))
    else if e = 'u' then jsonUnicodeEscape rest
    else none

/-- Decoding of a `\uXXXX` escape tail inside a JSON string literal. -/
def jsonUnicodeEscape : Str → Option (Str × Str)
  | a :: b :: c :: d :: rest2 =>
    match hexVal4 a b c d with
    | some code =>
      if code < 0xd800 ∨ (0xe000 ≤ code ∧ code < 0x110000) then
        (jsonStringBody rest2).map (fun p => (Char.ofNat code :: p.1, p.2))
      else none
    | none => none
  | _ => none

end

/-- Python `json.loads(tok)` restricted to string documents: a full
double-quoted string literal with nothing after it. -/
def jsonLoadsStr (tok : Str) : Option Str :=
  match tok with
  | '"' :: rest =>
    match jsonStringBody rest with
    | some (s, []) => some s
    | _ => none
  | _ => none

/-- `_parse_primitive_token`. -/
def parsePrimitiveToken (tok0 : Str) : Value :=
  let tok := strip tok0
  if tok = [] then .str []
  else if tok = "null".toList then .null
  else if tok = "true".toList then .bool true
  else if tok = "false".toList then .bool false
  else if (tok.head? = some '"' ∧ tok.getLast? = some '"') ∨
          (tok.head? = some '\'' ∧ tok.getLast? = some '\'') then
    match jsonLoadsStr tok with
    | some s => .str s
    | none => .str ((tok.drop 1).dropLast)
  else
    match pyIntParse tok with
    | some n => .int n
    | none => if pyFloatAccepts tok then .float tok else .str tok

/-- `_count_leading_indent`: count of leading `INDENT_STR` units. -/
def countLeadingIndent : Str → Nat
  | c1 :: c2 :: rest =>
    if c1 = ' ' ∧ c2 = ' ' then countLeadingIndent rest + 1 else 0
  | _ => 0

/-- `_split_csv_like`: comma split respecting quoted substrings. -/
def splitCsvAux : Str → Bool → Option Char → Str → List Str → List Str
  | [], _, _, cur, parts =>
    if strip cur ≠ [] then parts ++ [strip cur] else parts
  | c :: rest, inQ, qc, cur, parts =>
    if c = '"' ∨ c = '\'' then
      if !inQ then splitCsvAux rest true (some c) (cur ++ [c]) parts
      else if qc = some c then splitCsvAux rest false qc (cur ++ [c]) parts
      else splitCsvAux rest inQ qc (cur ++ [c]) parts
    else if c = ',' ∧ !inQ then splitCsvAux rest inQ qc [] (parts ++ [strip cur])
    else splitCsvAux rest inQ qc (cur ++ [c]) parts

def splitCsvLike (s : Str) : List Str := splitCsvAux s false none [] []

/-! ## Parsing: `loads` (`toon.py` lines 303–501) -/

/-- The line-boundary characters of Python `str.splitlines`: `\n`, `\v`,
`\f`, `\r`, the file/group/record separators `\x1c`-`\x1e`, `\x85`, and the
Unicode line and paragraph separators U+2028 and U+2029. -/
def lineBoundary (c : Char) : Bool :=
  c.toNat = 10 ∨ c.toNat = 11 ∨ c.toNat = 12 ∨ c.toNat = 13 ∨
  c.toNat = 28 ∨ c.toNat = 29 ∨ c.toNat = 30 ∨ c.toNat = 0x85 ∨
  c.toNat = 0x2028 ∨ c.toNat = 0x2029

/-- Python `"".splitlines()`: split at every line boundary, treating a
`\r\n` pair as a single boundary. -/
def splitlinesGo : Str → List Str
  | [] => [[]]
  | c :: rest =>
    if lineBoundary c then
      if c = '\r' then
        match rest with
        | c2 :: rest2 =>
          if c2 = '\n' then [] :: splitlinesGo rest2
          else [] :: splitlinesGo (c2 :: rest2)
        | [] => [[], []]
      else [] :: splitlinesGo rest
    else
      match splitlinesGo rest with
      | [] => [[c]]
      | l :: ls => (c :: l) :: ls

/-- `str.splitlines()` drops the empty final line produced by a trailing
boundary. -/
def splitlines (s : Str) : List Str :=
  if s = [] then []
  else if (s.getLast?.map lineBoundary).getD false then (splitlinesGo s).dropLast
  else splitlinesGo s

theorem lineBoundary_toNat {c : Char} (h : lineBoundary c = true) :
    c.toNat = 10 ∨ c.toNat = 11 ∨ c.toNat = 12 ∨ c.toNat = 13 ∨
    c.toNat = 28 ∨ c.toNat = 29 ∨ c.toNat = 30 ∨ c.toNat = 0x85 ∨
    c.toNat = 0x2028 ∨ c.toNat = 0x2029 := by
  simpa [lineBoundary] using h

/-- Characters between `\x1f` and `\x84` (printable ASCII in particular) are
never line boundaries. -/
theorem lineBoundary_false_of_range {c : Char} (h1 : 31 < c.toNat)
    (h2 : c.toNat < 133) : lineBoundary c = false := by
  by_contra hb
  have := lineBoundary_toNat (by simpa using hb)
  omega

theorem ne_nl_of_not_lineBoundary {c : Char} (h : lineBoundary c = false) :
    c ≠ '\n' := by
  intro he
  subst he
  exact absurd h (by decide)

/-- One tokenized line: (indent level, depth-stripped content). -/
abbrev Line := Nat × Str

/-- The preprocessing in `loads`: split, drop blank lines, compute
`(indent, content)` pairs. -/
def tokenize (s : Str) : List Line :=
  ((splitlines s).filter (fun ln => strip ln ≠ [])).map
    (fun ln => (countLeadingIndent ln, ln.drop (countLeadingIndent ln * 2)))

/-- `result[key] = v` on an ordered dict: replace in place or append. -/
def dictSet (es : List (Str × Value)) (k : Str) (v : Value) : List (Str × Value) :=
  if es.any (fun e => e.1 = k) then
    es.map (fun e => if e.1 = k then (k, v) else e)
  else es ++ [(k, v)]

/-- The search for the first colon outside quotes in `parse_block`. -/
def findColonAux : Str → Nat → Bool → Option Char → Option Nat
  | [], _, _, _ => none
  | c :: rest, i, inQ, qch =>
    if c = '"' ∨ c = '\'' then
      if !inQ then findColonAux rest (i + 1) true (some c)
      else if qch = some c then findColonAux rest (i + 1) false qch
      else findColonAux rest (i + 1) inQ qch
    else if c = ':' ∧ !inQ then some i
    else findColonAux rest (i + 1) inQ qch

def findColon (content : Str) : Option Nat := findColonAux content 0 false none

/-- `key_part.split("[", 1)[0]`. -/
def takeUntilLBracket (s : Str) : Str := s.takeWhile (· ≠ '[')

/-- First index of `c` in `s` at or after `start` (Python `s.index(c, start)`,
`none` for `ValueError`). -/
def indexOfFrom (c : Char) (s : Str) (start : Nat) : Option Nat :=
  ((s.drop start).findIdx? (· = c)).map (· + start)

/-- Python `keys_str.split(",")` (plain, quote-unaware). -/
def splitOnComma : Str → List Str
  | [] => [[]]
  | c :: rest =>
    if c = ',' then [] :: splitOnComma rest
    else
      match splitOnComma rest with
      | [] => [[c]]
      | l :: ls => (c :: l) :: ls

/-- The column keys of a table header `name[N]{k1,k2}:` (the `try` block in
`parse_block`; a failed index lookup yields `[]`; the `N` section is read but
never used). -/
def parseTableKeys (keyPart : Str) : List Str :=
  let keys? : Option (List Str) := do
    let brStart ← indexOfFrom '[' keyPart 0
    let brEnd ← indexOfFrom ']' keyPart brStart
    let keysStart ← indexOfFrom '\x7b' keyPart brEnd
    let keysEnd ← indexOfFrom '\x7d' keyPart keysStart
    let keysStr := (keyPart.take keysEnd).drop (keysStart + 1)
    pure ((splitOnComma keysStr).filterMap (fun k =>
      if strip k = [] then none
      else some (stripChar '\'' (stripChar '"' (strip k)))))
  keys?.getD []

/-- One row of a table: zip the declared keys against the comma-split tokens
(`row[k] = _parse_primitive_token(vtok)` in insertion order). -/
def parseTableRow (keys : List Str) (rowContent : Str) : Value :=
  .dict ((keys.zip (splitCsvLike (strip rowContent))).foldl
    (fun acc kv => dictSet acc kv.1 (parsePrimitiveToken kv.2)) [])

/-- The final `return` of one `parse_block` activation. -/
def finishBlock (arr : Option (List Value)) (res : List (Str × Value)) : Value :=
  match arr with
  | some a => .list a
  | none =>
    match res with
    | [(k, v)] => if k = "_table".toList then v else .dict res
    | _ => .dict res

/-- `parse_block(expected_indent)`, with the shared cursor modelled by passing
the remaining lines in and out, and the `while` loop plus recursive calls
driven by fuel (any fuel above the line count is enough, since every call
strictly shortens the line list). -/
def parseBlock (fuel : Nat) (lines : List Line) (expected : Nat)
    (arr : Option (List Value)) (res : List (Str × Value)) : Value × List Line :=
  match fuel with
  | 0 => (finishBlock arr res, lines)
  | fuel + 1 =>
    match lines with
    | [] => (finishBlock arr res, [])
    | (ind, content) :: rest =>
      if ind < expected ∨ ind > expected then (finishBlock arr res, lines)
      else if strip content = "[]".toList then
        if arr = none ∧ res = [] then (.list [], rest)
        else parseBlock fuel rest expected arr res
      else if strip content = "\x7b\x7d".toList then
        if arr = none ∧ res = [] then (.dict [], rest)
        else parseBlock fuel rest expected arr res
      else if content.take 2 = "- ".toList ∨ content = ['-'] then
        let arr0 := arr.getD []
        if content = ['-'] then
          match rest with
          | (ind2, _) :: _ =>
            if ind2 > ind then
              let p := parseBlock fuel rest (ind + 1) none []
              parseBlock fuel p.2 expected (some (arr0 ++ [p.1])) res
            else parseBlock fuel rest expected (some (arr0 ++ [Value.null])) res
          | [] => parseBlock fuel rest expected (some (arr0 ++ [Value.null])) res
        else
          let valTok := strip (content.drop 2)
          if ',' ∈ valTok ∧ ¬(valTok.head? = some '"' ∨ valTok.head? = some '\'') then
            parseBlock fuel rest expected
              (some (arr0 ++ (splitCsvLike valTok).map parsePrimitiveToken)) res
          else
            parseBlock fuel rest expected (some (arr0 ++ [parsePrimitiveToken valTok])) res
      else
        match findColon content with
        | none =>
          let v := parsePrimitiveToken content
          if arr = none ∧ res = [] then (v, rest)
          else
            match arr with
            | some a => parseBlock fuel rest expected (some (a ++ [v])) res
            | none => parseBlock fuel rest expected arr res
        | some pos =>
          let keyPart := strip (content.take pos)
          let valPart := strip (content.drop (pos + 1))
          if valPart = [] then
            if '[' ∈ keyPart ∧ ']' ∈ keyPart ∧ '\x7b' ∈ keyPart ∧ '\x7d' ∈ keyPart then
              let nameSection := strip (takeUntilLBracket keyPart)
              let keys := parseTableKeys keyPart
              let rows := (rest.takeWhile (fun l => l.1 = expected + 1)).map
                (fun l => parseTableRow keys l.2)
              let rest2 := rest.dropWhile (fun l => l.1 = expected + 1)
              let resultKey := if nameSection = [] then "_table".toList else nameSection
              parseBlock fuel rest2 expected arr (dictSet res resultKey (.list rows))
            else
              let isListHeader := '[' ∈ keyPart ∧ keyPart.getLast? = some ']'
              let realKey := if isListHeader then strip (takeUntilLBracket keyPart) else keyPart
              let p := parseBlock fuel rest (expected + 1) none []
              let nested := if isListHeader ∧ p.1 = Value.dict [] then Value.list [] else p.1
              parseBlock fuel p.2 expected arr (dictSet res realKey nested)
          else
            if '[' ∈ keyPart ∧ ']' ∈ keyPart then
              let nm := strip (takeUntilLBracket keyPart)
              let vals := ((splitCsvLike valPart).filter (· ≠ [])).map parsePrimitiveToken
              parseBlock fuel rest expected arr (dictSet res nm (.list vals))
            else
              parseBlock fuel rest expected arr
                (dictSet res keyPart (parsePrimitiveToken valPart))

/-- `loads`. -/
def loads (s : Str) : Value :=
  let processed := tokenize s
  (parseBlock (processed.length + 1) processed 0 none []).1

/-! ## Claim C2: the keyed single-line scalar sequence form -/

/-- C2 fails on the code: `dumps({"nums": [1, 2, 3]})` does not return
`"nums[3]: 1,2,3\n"`, because the dict branch of `dumps` renders a non-primitive
value under a bare `key:` header and never passes the key down as `name`. -/
theorem C2_counterexample :
    dumps (.dict [("nums".toList, .list [.int 1, .int 2, .int 3])]) none 0 ≠
      "nums[3]: 1,2,3\n".toList := by
  decide

/-- C2 amended: `dumps({"nums": [1, 2, 3]})` returns `"nums:\n  - 1, 2, 3\n"`
(key header line, then one dash line of comma-space separated scalars one level
deeper); the keyed single-line form `"nums[3]: 1,2,3\n"` is produced only when
the list itself is encoded with the explicit top-level name `"nums"`; decoding
either text yields `{"nums": [1, 2, 3]}`. -/
theorem C2_amended_forms :
    dumps (.dict [("nums".toList, .list [.int 1, .int 2, .int 3])]) none 0 =
      "nums:\n  - 1, 2, 3\n".toList ∧
    dumps (.list [.int 1, .int 2, .int 3]) (some "nums".toList) 0 =
      "nums[3]: 1,2,3\n".toList ∧
    loads "nums:\n  - 1, 2, 3\n".toList =
      .dict [("nums".toList, .list [.int 1, .int 2, .int 3])] ∧
    loads "nums[3]: 1,2,3\n".toList =
      .dict [("nums".toList, .list [.int 1, .int 2, .int 3])] := by
  refine ⟨by decide, by decide, by decide, by decide⟩

/-! ## Claim C3: the compact keyed table form -/

/-- C3 fails on the code: `dumps({"tbl": [{"id": 1, "val": "A"}, {"id": 2,
"val": "B"}]})` does not return `"tbl[2]\x7bid,val\x7d:\n  1,A\n  2,B\n"`; the
dict branch emits a bare `tbl:` header and renders the table anonymously one
level deeper. -/
theorem C3_counterexample :
    dumps (.dict [("tbl".toList, .list
      [.dict [("id".toList, .int 1), ("val".toList, .str ['A'])],
       .dict [("id".toList, .int 2), ("val".toList, .str ['B'])]])]) none 0 ≠
      "tbl[2]\x7bid,val\x7d:\n  1,A\n  2,B\n".toList := by
  decide

/-- C3 amended: the mapping encodes as `"tbl:\n  [2]\x7bid,val\x7d:\n    1,A\n
2,B\n"` (bare key header, anonymous table header and rows one level deeper);
the claimed text `"tbl[2]\x7bid,val\x7d:\n  1,A\n  2,B\n"` is produced only
with an explicit top-level `name="tbl"`; decoding either text reconstructs the
same mapping with the two rows in order. -/
theorem C3_amended_forms :
    dumps (.dict [("tbl".toList, .list
      [.dict [("id".toList, .int 1), ("val".toList, .str ['A'])],
       .dict [("id".toList, .int 2), ("val".toList, .str ['B'])]])]) none 0 =
      "tbl:\n  [2]\x7bid,val\x7d:\n    1,A\n    2,B\n".toList ∧
    dumps (.list
      [.dict [("id".toList, .int 1), ("val".toList, .str ['A'])],
       .dict [("id".toList, .int 2), ("val".toList, .str ['B'])]])
      (some "tbl".toList) 0 =
      "tbl[2]\x7bid,val\x7d:\n  1,A\n  2,B\n".toList ∧
    loads "tbl:\n  [2]\x7bid,val\x7d:\n    1,A\n    2,B\n".toList =
      .dict [("tbl".toList, .list
        [.dict [("id".toList, .int 1), ("val".toList, .str ['A'])],
         .dict [("id".toList, .int 2), ("val".toList, .str ['B'])]])] ∧
    loads "tbl[2]\x7bid,val\x7d:\n  1,A\n  2,B\n".toList =
      .dict [("tbl".toList, .list
        [.dict [("id".toList, .int 1), ("val".toList, .str ['A'])],
         .dict [("id".toList, .int 2), ("val".toList, .str ['B'])]])] := by
  refine ⟨by decide, by decide, by decide, by decide⟩

/-! ## Claim C7: empty containers round-trip -/

/-- C7: an empty Mapping and an empty Sequence each round-trip to the same
empty kind, both at the root (`\x7b\x7d` / `[]` marker lines) and when nested
under a mapping key. -/
theorem C7_empty_containers_roundtrip :
    loads (dumps (.dict []) none 0) = .dict [] ∧
    loads (dumps (.list []) none 0) = .list [] ∧
    loads (dumps (.dict [("a".toList, .dict [])]) none 0) =
      .dict [("a".toList, .dict [])] ∧
    loads (dumps (.dict [("a".toList, .list [])]) none 0) =
      .dict [("a".toList, .list [])] := by
  refine ⟨by decide, by decide, by decide, by decide⟩

/-! ## Claim C1: the round-trip property -/

/-- C1 fails on the code at a concrete input: the text scalar `"5"` is emitted
as the bare token `5`, which the decoder turns back into the integer `5`, so
`loads(dumps({"a": "5"}))` is `{"a": 5}` and not `{"a": "5"}`. -/
theorem C1_counterexample :
    loads (dumps (.dict [("a".toList, .str ['5'])]) none 0) =
      .dict [("a".toList, .int 5)] ∧
    loads (dumps (.dict [("a".toList, .str ['5'])]) none 0) ≠
      .dict [("a".toList, .str ['5'])] := by
  refine ⟨by decide, by decide⟩

/-! ## Claim C4: the scalar quoting rule -/

/-- Condition of claim C4, stated from the spec's words: empty, or contains a
comma / newline / carriage return, or starts or ends with whitespace, or starts
with a double or single quote, or case-insensitively equals a keyword. -/
def quoteCondition (s : Str) : Bool :=
  s.isEmpty ||
  s.any (fun ch => ch = ',' ∨ ch = '\n' ∨ ch = '\r') ||
  (match s.head? with | some c => pySpace c | none => false) ||
  (match s.getLast? with | some c => pySpace c | none => false) ||
  (match s.head? with | some c => c = '"' ∨ c = '\'' | none => false) ||
  (lowerS s = "null".toList || lowerS s = "true".toList || lowerS s = "false".toList)

/-- C4: the scalar encoder emits the JSON-quoted escaped literal exactly when
the claim's condition holds, and the raw text verbatim otherwise. -/
theorem C4_quoting_rule (s : Str) :
    toToonPrimitive (.str s) = (if quoteCondition s then jsonDumps s else s) := by
  cases s with
  | nil => simp [toToonPrimitive, quoteCondition, jsonDumps, escapeStr]
  | cons c t =>
    by_cases hq : needsQuote (c :: t) = true
    · have : quoteCondition (c :: t) = true := by
        simp only [quoteCondition, needsQuote] at hq ⊢
        simp only [List.isEmpty_cons, Bool.false_or]
        exact hq
      simp [toToonPrimitive, hq, this]
    · have : quoteCondition (c :: t) = false := by
        simp only [quoteCondition, needsQuote] at hq ⊢
        simp only [List.isEmpty_cons, Bool.false_or]
        simpa using hq
      simp only [Bool.not_eq_true] at hq
      simp [toToonPrimitive, hq, this]

/-! ## Claim C10: blank input decodes to the empty mapping -/

/-- C10: decoding an input whose lines are all blank (in particular the empty
text) returns the empty Mapping. -/
theorem C10_blank_input (s : Str) (h : ∀ l ∈ splitlines s, strip l = []) :
    loads s = .dict [] := by
  have ht : tokenize s = [] := by
    simp [tokenize]
    exact h
  simp [loads, ht, parseBlock, finishBlock]

/-- Witness for C10 at the concrete blank input `"  \n\n \n"`. -/
theorem C10_witness :
    (∀ l ∈ splitlines "  \n\n \n".toList, strip l = []) ∧
      loads "  \n\n \n".toList = .dict [] :=
  ⟨by decide, C10_blank_input "  \n\n \n".toList (by decide)⟩

/-! ## Claim C9: numeric-looking bare text decodes as a number -/

theorem dropWhile_pySpace_eq_self {s : Str}
    (h : ∀ c, s.head? = some c → pySpace c = false) :
    s.dropWhile pySpace = s := by
  cases s with
  | nil => rfl
  | cons a t => simp [List.dropWhile_cons, h a rfl]

theorem strip_eq_self {s : Str}
    (h1 : ∀ c, s.head? = some c → pySpace c = false)
    (h2 : ∀ c, s.getLast? = some c → pySpace c = false) :
    strip s = s := by
  unfold strip
  rw [dropWhile_pySpace_eq_self h1]
  rw [dropWhile_pySpace_eq_self (by simpa using h2)]
  exact List.reverse_reverse s

/-- Number-hood of a decoded scalar (integer or float). -/
def isNumber : Value → Bool
  | .int _ | .float _ => true
  | _ => false

/-- C9: a nonempty text scalar that triggers no quoting condition and parses
as an integer or float is emitted verbatim as a bare token, and the decoder
turns that token into a numeric scalar, not text — so the decoded value
differs in kind from the original text value. -/
theorem C9_bare_numeric_text (s : Str) (h1 : s ≠ [])
    (h2 : needsQuote s = false)
    (h3 : (pyIntParse s).isSome = true ∨ pyFloatAccepts s = true) :
    toToonPrimitive (.str s) = s ∧
    isNumber (parsePrimitiveToken s) = true ∧
    parsePrimitiveToken s ≠ .str s := by
  have henc : toToonPrimitive (.str s) = s := by
    simp [toToonPrimitive, h1, h2]
  simp only [needsQuote, Bool.or_eq_false_iff] at h2
  obtain ⟨⟨⟨⟨hany, hhead⟩, hlast⟩, hquo⟩, hkw⟩ := h2
  have hstrip : strip s = s := by
    apply strip_eq_self
    · intro c hc; rw [hc] at hhead; exact hhead
    · intro c hc; rw [hc] at hlast; exact hlast
  have hnn : s ≠ "null".toList := by
    intro he; rw [he] at hkw; revert hkw; decide
  have hnt : s ≠ "true".toList := by
    intro he; rw [he] at hkw; revert hkw; decide
  have hnf : s ≠ "false".toList := by
    intro he; rw [he] at hkw; revert hkw; decide
  have hq : ¬((s.head? = some '"' ∧ s.getLast? = some '"') ∨
      (s.head? = some '\'' ∧ s.getLast? = some '\'')) := by
    rintro (⟨ha, _⟩ | ⟨ha, _⟩) <;> rw [ha] at hquo <;> revert hquo <;> decide
  have hparse : parsePrimitiveToken s =
      (match pyIntParse s with
       | some n => Value.int n
       | none => if pyFloatAccepts s then Value.float s else Value.str s) := by
    unfold parsePrimitiveToken
    rw [hstrip]
    rw [if_neg h1, if_neg hnn, if_neg hnt, if_neg hnf, if_neg hq]
  rcases h3 with h3 | h3
  · obtain ⟨n, hn⟩ := Option.isSome_iff_exists.mp h3
    rw [hparse, hn]
    exact ⟨henc, rfl, by simp⟩
  · refine ⟨henc, ?_, ?_⟩ <;> rw [hparse] <;> cases hi : pyIntParse s
    · simp [h3, isNumber]
    · rfl
    · simp [h3]
    · simp

/-- Witness for C9 at the text scalar `"5"`. -/
theorem C9_witness :
    toToonPrimitive (.str ['5']) = ['5'] ∧
    isNumber (parsePrimitiveToken ['5']) = true ∧
    parsePrimitiveToken ['5'] ≠ .str ['5'] :=
  C9_bare_numeric_text ['5'] (by decide) (by decide) (by decide)

/-! ## Claim C5: quoted strings round-trip exactly -/

theorem hexVal_digitChar (k : Nat) (h : k < 16) : hexVal (Nat.digitChar k) = some k := by
  interval_cases k <;> decide

/-- Unescaping inverts escaping: the JSON string body reader consumes the
escaped form of `s` up to the closing quote and returns `s` exactly. -/
theorem jsonStringBody_escapeStr (s rest : Str) :
    jsonStringBody (escapeStr s ++ '"' :: rest) = some (s, rest) := by
  induction s with
  | nil => simp [escapeStr, jsonStringBody]
  | cons c t ih =>
    show jsonStringBody ((escapeChar c ++ escapeStr t) ++ '"' :: rest) = _
    rw [List.append_assoc]
    by_cases h1 : c = '"'
    · subst h1; simp [escapeChar, jsonStringBody, jsonEscapeSeq, ih]
    · by_cases h2 : c = '\\'
      · subst h2; simp [escapeChar, jsonStringBody, jsonEscapeSeq, ih]
      · by_cases h3 : c = '\n'
        · subst h3; simp [escapeChar, jsonStringBody, jsonEscapeSeq, ih]
        · by_cases h4 : c = '\r'
          · subst h4; simp [escapeChar, jsonStringBody, jsonEscapeSeq, ih]
          · by_cases h5 : c = '\t'
            · subst h5; simp [escapeChar, jsonStringBody, jsonEscapeSeq, ih]
            · by_cases h6 : c = '\x08'
              · subst h6; simp [escapeChar, jsonStringBody, jsonEscapeSeq, ih]
              · by_cases h7 : c = '\x0c'
                · subst h7; simp [escapeChar, jsonStringBody, jsonEscapeSeq, ih]
                · by_cases h8 : c.toNat < 0x20
                  · have hdiv : c.toNat / 16 < 16 := by omega
                    have hmod : c.toNat % 16 < 16 := Nat.mod_lt _ (by omega)
                    have hx4 : hexVal4 '0' '0' (Nat.digitChar (c.toNat / 16))
                        (Nat.digitChar (c.toNat % 16)) = some c.toNat := by
                      simp [hexVal4, hexVal_digitChar _ hdiv, hexVal_digitChar _ hmod,
                        show hexVal '0' = some 0 from by decide]
                      omega
                    simp only [escapeChar, if_neg h1, if_neg h2, if_neg h3, if_neg h4,
                      if_neg h5, if_neg h6, if_neg h7, if_pos h8]
                    simp only [List.cons_append, List.nil_append]
                    show jsonUnicodeEscape ('0' :: '0' :: Nat.digitChar (c.toNat / 16) ::
                      Nat.digitChar (c.toNat % 16) :: (escapeStr t ++ '"' :: rest)) =
                      some (c :: t, rest)
                    simp only [jsonUnicodeEscape]
                    rw [hx4]
                    simp [ih, Char.ofNat_toNat, show c.toNat < 55296 from by omega]
                  · simp only [escapeChar, if_neg h1, if_neg h2, if_neg h3, if_neg h4,
                      if_neg h5, if_neg h6, if_neg h7, if_neg h8]
                    simp only [List.cons_append, List.nil_append]
                    simp [jsonStringBody, if_neg h1, if_neg h2, if_neg h8, ih]

theorem jsonLoadsStr_jsonDumps (s : Str) : jsonLoadsStr (jsonDumps s) = some s := by
  have h : jsonStringBody (escapeStr s ++ '"' :: ([] : Str)) = some (s, []) :=
    jsonStringBody_escapeStr s []
  simp [jsonLoadsStr, jsonDumps, h]

theorem getLast?_jsonDumps (s : Str) : (jsonDumps s).getLast? = some '"' := by
  unfold jsonDumps
  rw [show '"' :: escapeStr s ++ ['"'] = ('"' :: escapeStr s) ++ ['"'] from rfl]
  exact List.getLast?_concat _

/-- Decoding an encoder-produced JSON-quoted literal returns the original
text exactly. -/
theorem parse_jsonDumps (s : Str) : parsePrimitiveToken (jsonDumps s) = .str s := by
  have hlast := getLast?_jsonDumps s
  have hstrip : strip (jsonDumps s) = jsonDumps s := by
    apply strip_eq_self
    · intro c hc
      have hh : (jsonDumps s).head? = some '"' := by simp [jsonDumps]
      rw [hh] at hc
      have hcq : '"' = c := by injection hc
      rw [← hcq]; decide
    · intro c hc
      rw [hlast] at hc
      have hcq : '"' = c := by injection hc
      rw [← hcq]; decide
  have hne : jsonDumps s ≠ [] := by simp [jsonDumps]
  have hq : (jsonDumps s).head? = some '"' ∧ (jsonDumps s).getLast? = some '"' := by
    exact ⟨by simp [jsonDumps], hlast⟩
  unfold parsePrimitiveToken
  rw [hstrip]
  rw [if_neg hne]
  rw [if_neg (by simp [jsonDumps] : ¬jsonDumps s = "null".toList)]
  rw [if_neg (by simp [jsonDumps] : ¬jsonDumps s = "true".toList)]
  rw [if_neg (by simp [jsonDumps] : ¬jsonDumps s = "false".toList)]
  rw [if_pos (Or.inl hq)]
  rw [jsonLoadsStr_jsonDumps s]

/-- Condition of claim C5, stated from the spec's words: contains a comma or a
newline, has leading or trailing whitespace, or case-insensitively equals a
keyword. -/
def C5Condition (s : Str) : Bool :=
  s.any (fun ch => ch = ',' ∨ ch = '\n') ||
  (match s.head? with | some c => pySpace c | none => false) ||
  (match s.getLast? with | some c => pySpace c | none => false) ||
  (lowerS s = "null".toList || lowerS s = "true".toList || lowerS s = "false".toList)

/-- C5: any text containing a comma or newline, with leading or trailing
whitespace, or case-insensitively equal to a keyword is encoded as a quoted
token, and decoding that token returns the original text character for
character. -/
theorem C5_quoting_necessity (s : Str) (h : C5Condition s = true) :
    toToonPrimitive (.str s) = jsonDumps s ∧
    parsePrimitiveToken (toToonPrimitive (.str s)) = .str s := by
  have hne : s ≠ [] := by
    intro he; subst he; revert h; decide
  have hq : needsQuote s = true := by
    simp only [C5Condition, Bool.or_eq_true] at h
    simp only [needsQuote, Bool.or_eq_true]
    rcases h with ((hc | hc) | hc) | hc
    · refine Or.inl (Or.inl (Or.inl (Or.inl ?_)))
      simp only [List.any_eq_true] at hc ⊢
      obtain ⟨x, hx, hx2⟩ := hc
      refine ⟨x, hx, ?_⟩
      simp only [decide_eq_true_eq] at hx2 ⊢
      tauto
    · exact Or.inl (Or.inl (Or.inl (Or.inr hc)))
    · exact Or.inl (Or.inl (Or.inr hc))
    · exact Or.inr hc
  have henc : toToonPrimitive (.str s) = jsonDumps s := by
    simp [toToonPrimitive, hne, hq]
  exact ⟨henc, by rw [henc]; exact parse_jsonDumps s⟩

/-- Witness for C5 at the text `" x,"` (leading space and a comma). -/
theorem C5_witness :
    toToonPrimitive (.str [' ', 'x', ',']) = jsonDumps [' ', 'x', ','] ∧
    parsePrimitiveToken (toToonPrimitive (.str [' ', 'x', ','])) = .str [' ', 'x', ','] :=
  C5_quoting_necessity [' ', 'x', ','] (by decide)

/-! ## Claim C6: the table detector -/

theorem char_toNat_inj {c d : Char} (h : c.toNat = d.toNat) : c = d := by
  have h2 := congrArg Char.ofNat h
  rwa [Char.ofNat_toNat, Char.ofNat_toNat] at h2

theorem strLe_nil (b : Str) : strLe [] b = true := by
  cases b <;> simp [strLe, strLt]

theorem strLe_cons_iff {x y : Char} {xs ys : Str} :
    strLe (x :: xs) (y :: ys) = true ↔
      x.toNat < y.toNat ∨ (x = y ∧ strLe xs ys = true) := by
  simp only [strLe, strLt, Bool.or_eq_true, beq_iff_eq, List.cons.injEq]
  by_cases h1 : x.toNat < y.toNat
  · simp [h1]
  · by_cases h2 : x = y
    · simp [h1, h2]
    · simp [h1, h2]

theorem strLe_total (a : Str) : ∀ b, strLe a b = true ∨ strLe b a = true := by
  induction a with
  | nil => intro b; exact Or.inl (strLe_nil b)
  | cons x xs ih =>
    intro b
    cases b with
    | nil => exact Or.inr (strLe_nil _)
    | cons y ys =>
      rcases Nat.lt_trichotomy x.toNat y.toNat with h | h | h
      · exact Or.inl (strLe_cons_iff.mpr (Or.inl h))
      · have hxy : x = y := char_toNat_inj h
        subst hxy
        rcases ih ys with h2 | h2
        · exact Or.inl (strLe_cons_iff.mpr (Or.inr ⟨rfl, h2⟩))
        · exact Or.inr (strLe_cons_iff.mpr (Or.inr ⟨rfl, h2⟩))
      · exact Or.inr (strLe_cons_iff.mpr (Or.inl h))

theorem strLe_trans (a : Str) : ∀ b c, strLe a b = true → strLe b c = true →
    strLe a c = true := by
  induction a with
  | nil => intro b c _ _; exact strLe_nil c
  | cons x xs ih =>
    intro b c hab hbc
    cases b with
    | nil => simp [strLe, strLt] at hab
    | cons y ys =>
      cases c with
      | nil => simp [strLe, strLt] at hbc
      | cons z zs =>
        rcases strLe_cons_iff.mp hab with h1 | ⟨h1, h1r⟩ <;>
          rcases strLe_cons_iff.mp hbc with h2 | ⟨h2, h2r⟩
        · exact strLe_cons_iff.mpr (Or.inl (Nat.lt_trans h1 h2))
        · exact strLe_cons_iff.mpr (Or.inl (h2 ▸ h1))
        · exact strLe_cons_iff.mpr (Or.inl (h1 ▸ h2))
        · exact strLe_cons_iff.mpr (Or.inr ⟨h1.trans h2, ih ys zs h1r h2r⟩)

instance : IsTotal Str (fun a b => strLe a b = true) := ⟨strLe_total⟩

instance : IsTrans Str (fun a b => strLe a b = true) := ⟨strLe_trans⟩

/-- C6: the table detector returns not-uniform for the empty sequence and for
any sequence with a non-Mapping element; on all-Mapping sequences it reports
uniform exactly when all key sets agree; in the uniform case it returns the
shared insertion order when every element lists its keys identically, and
otherwise the lexicographically sorted key set (sorted and a permutation of
the distinct keys). -/
theorem C6_table_detector :
    (allDictsUniform [] = (false, none)) ∧
    (∀ xs : List Value, (∃ x ∈ xs, isDictV x = false) →
      allDictsUniform xs = (false, none)) ∧
    (∀ x xs, (∀ y ∈ x :: xs, isDictV y = true) →
      ((allDictsUniform (x :: xs)).1 = true ↔
        ∀ y ∈ x :: xs, setEqS (keysOf y) (keysOf x) = true)) ∧
    (∀ x xs, (∀ y ∈ x :: xs, isDictV y = true) →
      (∀ y ∈ x :: xs, keysOf y = keysOf x) →
      allDictsUniform (x :: xs) = (true, some (keysOf x))) ∧
    (∀ x xs, (∀ y ∈ x :: xs, isDictV y = true) →
      (∀ y ∈ x :: xs, setEqS (keysOf y) (keysOf x) = true) →
      ¬(∀ y ∈ x :: xs, keysOf y = keysOf x) →
      allDictsUniform (x :: xs) = (true, some (sortStrs (keysOf x).dedup)) ∧
      List.Sorted (fun a b => strLe a b = true) (sortStrs (keysOf x).dedup) ∧
      (sortStrs (keysOf x).dedup).Perm (keysOf x).dedup) := by
  refine ⟨rfl, ?_, ?_, ?_, ?_⟩
  · intro xs h
    obtain ⟨x, hx, hxd⟩ := h
    cases xs with
    | nil => cases hx
    | cons a l =>
      have hall : (a :: l).all isDictV = false := by
        apply Bool.eq_false_iff.mpr
        intro hc
        rw [List.all_eq_true] at hc
        rw [hc x hx] at hxd
        cases hxd
      simp [allDictsUniform, hall]
  · intro x xs hd
    have hall : (x :: xs).all isDictV = true := List.all_eq_true.mpr hd
    by_cases hs : (x :: xs).all (fun d => setEqS (keysOf d) (keysOf x)) = true
    · constructor
      · intro _; exact List.all_eq_true.mp hs
      · intro _
        by_cases ho : (x :: xs).all (fun d => keysOf d = keysOf x) = true <;>
          simp [allDictsUniform, hall, hs, ho]
    · have hs2 : (x :: xs).all (fun d => setEqS (keysOf d) (keysOf x)) = false :=
        Bool.eq_false_iff.mpr hs
      constructor
      · intro hcon
        exfalso
        have hfn : allDictsUniform (x :: xs) = (false, none) := by
          simp [allDictsUniform, hall, hs2]
        rw [hfn] at hcon
        exact Bool.false_ne_true hcon
      · intro hc
        exact absurd (List.all_eq_true.mpr hc) hs
  · intro x xs hd ho
    have hall : (x :: xs).all isDictV = true := List.all_eq_true.mpr hd
    have hords : (x :: xs).all (fun d => keysOf d = keysOf x) = true := by
      apply List.all_eq_true.mpr
      intro y hy
      simpa using ho y hy
    have hsets : (x :: xs).all (fun d => setEqS (keysOf d) (keysOf x)) = true := by
      apply List.all_eq_true.mpr
      intro y hy
      have hyx := ho y hy
      simp only [hyx]
      simp [setEqS]
    simp [allDictsUniform, hall, hsets, hords]
  · intro x xs hd hs ho
    have hall : (x :: xs).all isDictV = true := List.all_eq_true.mpr hd
    have hsets : (x :: xs).all (fun d => setEqS (keysOf d) (keysOf x)) = true :=
      List.all_eq_true.mpr hs
    have hords : (x :: xs).all (fun d => keysOf d = keysOf x) = false := by
      apply Bool.eq_false_iff.mpr
      intro hc
      apply ho
      intro y hy
      simpa using List.all_eq_true.mp hc y hy
    refine ⟨by simp [allDictsUniform, hall, hsets, hords], ?_, ?_⟩
    · exact List.sorted_insertionSort _ _
    · exact List.perm_insertionSort _ _

/-- Witness for C6 at two mappings with equal key sets listed in different
orders: the detector reports uniform with the lexicographically sorted keys. -/
theorem C6_witness :
    allDictsUniform
      [.dict [("b".toList, .int 1), ("a".toList, .int 2)],
       .dict [("a".toList, .int 3), ("b".toList, .int 4)]] =
      (true, some ["a".toList, "b".toList]) := by
  have h := (C6_table_detector.2.2.2.2
      (.dict [("b".toList, .int 1), ("a".toList, .int 2)])
      [.dict [("a".toList, .int 3), ("b".toList, .int 4)]]
      (by decide) (by decide) (by decide)).1
  rw [h]
  decide

/-! ## Claims C1 and C8: a verified round-trip fragment

`goodV` carves out the class of values for which `loads (dumps v)` provably
returns `v`: mappings with distinct identifier keys (other than the parser's
reserved `_table` name), sequences of scalars whose tokens are simple
(nonempty, unpadded, printable-ASCII, and free of commas and quote
characters), and scalar leaves whose printable-ASCII token individually
survives the scalar codec (which excludes bare text that parses as a number —
the C1 counterexample — and keeps every token on the common ground where the
modelled `splitlines` / `int` / `float` agree exactly with Python). -/

/-- A token that sits on one line of output, is unchanged by stripping, and
consists of printable ASCII only.  On printable-ASCII tokens every modelled
Python primitive coincides exactly with the program: no character is a
`str.splitlines` boundary, and `int()` / `float()` accept exactly the ASCII
grammars modelled by `pyIntParse` / `pyFloatAccepts` (their extra Unicode
digit acceptance concerns only non-ASCII tokens). -/
def tokenSafe (tok : Str) : Bool :=
  tok ≠ [] && tok.all (fun c => 32 ≤ c.toNat ∧ c.toNat ≤ 126) && strip tok = tok

/-- A scalar whose token individually round-trips through the scalar codec. -/
def goodScalar (v : Value) : Bool :=
  isPrimitive v && tokenSafe (toToonPrimitive v) &&
    parsePrimitiveToken (toToonPrimitive v) = v

/-- A token safe to appear inside a comma-joined scalar sequence line. -/
def listTokenSafe (tok : Str) : Bool :=
  tokenSafe tok && tok.all (fun c => c ≠ ',' ∧ c ≠ '"' ∧ c ≠ '\'')

mutual

def goodV : Value → Bool
  | .list xs => goodList xs
  | .dict es => goodEntries es && (es.map (fun e => e.1)).Nodup
  | v => goodScalar v

def goodList : List Value → Bool
  | [] => true
  | v :: tl => goodScalar v && listTokenSafe (toToonPrimitive v) && goodList tl

def goodEntries : List (Str × Value) → Bool
  | [] => true
  | (k, v) :: tl =>
    isIdentifier k && k ≠ "_table".toList && goodV v && goodEntries tl

end

mutual

/-- The `(indent, content)` lines of `dumps v none d` for a non-primitive
`goodV` value (dict or scalar list); a primitive value renders as its bare
token line (only used at the root). -/
def blockLines : Value → Nat → List (Nat × Str)
  | .dict [], d => [(d, "\x7b\x7d".toList)]
  | .dict es, d => entryLines es d
  | .list xs, d =>
    if xs = [] then [(d, "[]".toList)]
    else [(d, "- ".toList ++ joinSep [',', ' '] (xs.map toToonPrimitive))]
  | v, d => [(d, toToonPrimitive v)]

def entryLines : List (Str × Value) → Nat → List (Nat × Str)
  | [], _ => []
  | (k, v) :: tl, d =>
    (if isPrimitive v then [(d, k ++ ':' :: ' ' :: toToonPrimitive v)]
     else (d, k ++ [':']) :: blockLines v (d + 1)) ++ entryLines tl d

end

/-- Reassemble the text of a line list (inverse of `tokenize` on well-formed
lines). -/
def untok (lines : List (Nat × Str)) : Str :=
  joinSep ['\n'] (lines.map (fun l => padOf l.1 ++ l.2)) ++ ['\n']

/-- A line whose content is nonempty, free of line-boundary characters and
does not start with whitespace, so that `tokenize ∘ untok` is the identity on
it. -/
def goodLine (l : Nat × Str) : Prop :=
  l.2 ≠ [] ∧ (∀ c ∈ l.2, lineBoundary c = false) ∧
    (∀ c, l.2.head? = some c → pySpace c = false)

theorem padOf_length (n : Nat) : (padOf n).length = 2 * n := by
  induction n with
  | zero => rfl
  | succ m ih => simp [padOf, INDENT, ih]; omega

theorem padOf_all_space (n : Nat) : ∀ c ∈ padOf n, pySpace c = true := by
  induction n with
  | zero => intro c hc; cases hc
  | succ m ih =>
    intro c hc
    simp only [padOf, INDENT, List.cons_append, List.nil_append, List.mem_cons] at hc
    rcases hc with rfl | rfl | hc
    · decide
    · decide
    · exact ih c hc

theorem countLeadingIndent_of_head {c : Str} (h : ∀ x, c.head? = some x → x ≠ ' ') :
    countLeadingIndent c = 0 := by
  cases c with
  | nil => rfl
  | cons a t =>
    have ha : a ≠ ' ' := h a rfl
    cases t with
    | nil => rfl
    | cons b t2 =>
      have hcond : ¬(a = ' ' ∧ b = ' ') := fun hab => ha hab.1
      simp [countLeadingIndent, hcond]

theorem countLeadingIndent_pad {c : Str} (h : ∀ x, c.head? = some x → x ≠ ' ')
    (n : Nat) : countLeadingIndent (padOf n ++ c) = n := by
  induction n with
  | zero => exact countLeadingIndent_of_head h
  | succ m ih =>
    show countLeadingIndent (' ' :: ' ' :: (padOf m ++ c)) = m + 1
    have : countLeadingIndent (' ' :: ' ' :: (padOf m ++ c)) =
        countLeadingIndent (padOf m ++ c) + 1 := by
      simp [countLeadingIndent]
    rw [this, ih]

theorem drop_pad (n : Nat) (c : Str) : (padOf n ++ c).drop (n * 2) = c := by
  have h := padOf_length n
  rw [show n * 2 = (padOf n).length by omega]
  exact List.drop_left _ _

theorem strip_ne_nil {c : Str} (hne : c ≠ [])
    (h : ∀ x, c.head? = some x → pySpace x = false) : strip c ≠ [] := by
  cases c with
  | nil => exact absurd rfl hne
  | cons a t =>
    have ha : pySpace a = false := h a rfl
    unfold strip
    rw [List.dropWhile_cons, ha]
    simp only [Bool.false_eq_true, if_false]
    intro hcon
    have := congrArg List.length hcon
    simp only [List.length_reverse, List.length_nil] at this
    have hmem : a ∈ (a :: t).reverse := by simp
    have : (a :: t).reverse.dropWhile pySpace = [] := by
      have := congrArg List.reverse hcon
      simpa using this
    rw [List.dropWhile_eq_nil_iff] at this
    rw [this a hmem] at ha
    cases ha

/-- Unfolding of `splitlinesGo` at a non-boundary head. -/
theorem splitlinesGo_cons_nb {c : Char} (hc : lineBoundary c = false)
    (rest : Str) :
    splitlinesGo (c :: rest) =
      match splitlinesGo rest with
      | [] => [[c]]
      | l :: ls => (c :: l) :: ls := by
  cases rest with
  | nil =>
    show splitlinesGo [c] = _
    simp only [splitlinesGo]
    rw [if_neg (by simp [hc])]
  | cons c2 r2 =>
    show splitlinesGo (c :: c2 :: r2) = _
    simp only [splitlinesGo]
    rw [if_neg (by simp [hc])]

/-- Unfolding of `splitlinesGo` at a `\n` head. -/
theorem splitlinesGo_nl (r : Str) :
    splitlinesGo ('\n' :: r) = [] :: splitlinesGo r := by
  cases r with
  | nil => decide
  | cons c2 r2 =>
    show splitlinesGo ('\n' :: c2 :: r2) = _
    simp only [splitlinesGo]
    rw [if_pos (by decide : lineBoundary '\n' = true)]
    rw [if_neg (by decide : ¬('\n' = '\r'))]

/-- `splitlinesGo` on a boundary-free line followed by a `\n` separator. -/
theorem splitlinesGo_line {x : Str} (h : ∀ c ∈ x, lineBoundary c = false)
    (r : Str) : splitlinesGo (x ++ '\n' :: r) = x :: splitlinesGo r := by
  induction x with
  | nil => exact splitlinesGo_nl r
  | cons c t ih =>
    have hc : lineBoundary c = false := h c (by simp)
    have iht := ih (fun d hd => h d (by simp [hd]))
    show splitlinesGo (c :: (t ++ '\n' :: r)) = (c :: t) :: splitlinesGo r
    rw [splitlinesGo_cons_nb hc]
    rw [iht]

theorem joinSep_cons_ne {sep : Str} {l : Str} {ls : List Str} (h : ls ≠ []) :
    joinSep sep (l :: ls) = l ++ sep ++ joinSep sep ls := by
  cases ls with
  | nil => exact absurd rfl h
  | cons a t => rfl

theorem splitlinesGo_joinSep (ls : List Str) (hne : ls ≠ [])
    (h : ∀ l ∈ ls, ∀ c ∈ l, lineBoundary c = false) :
    splitlinesGo (joinSep ['\n'] ls ++ ['\n']) = ls ++ [[]] := by
  induction ls with
  | nil => exact absurd rfl hne
  | cons l ls ih =>
    cases ls with
    | nil =>
      show splitlinesGo (l ++ '\n' :: []) = [l, []]
      rw [splitlinesGo_line (h l (by simp))]
      rfl
    | cons l2 ls2 =>
      rw [joinSep_cons_ne (by simp)]
      have hshape : (l ++ ['\n'] ++ joinSep ['\n'] (l2 :: ls2)) ++ ['\n'] =
          l ++ '\n' :: (joinSep ['\n'] (l2 :: ls2) ++ ['\n']) := by
        simp
      rw [hshape]
      rw [splitlinesGo_line (h l (by simp))]
      rw [ih (by simp) (fun a ha c hc => h a (by simp [ha]) c hc)]
      rfl

theorem joinSep_ne_nil {sep : Str} {ls : List Str} (hne : ls ≠ [])
    (h : ∀ l ∈ ls, l ≠ []) : joinSep sep ls ≠ [] := by
  cases ls with
  | nil => exact absurd rfl hne
  | cons l t =>
    cases t with
    | nil => exact h l (by simp)
    | cons a t2 =>
      rw [joinSep_cons_ne (by simp)]
      have := h l (by simp)
      cases l with
      | nil => exact absurd rfl this
      | cons x xs => simp

theorem getLast?_joinSep_not_nl (ls : List Str) (hne : ls ≠ [])
    (h : ∀ l ∈ ls, l ≠ [] ∧ ∀ c ∈ l, lineBoundary c = false) :
    ∀ ch, (joinSep ['\n'] ls).getLast? = some ch → ch ≠ '\n' := by
  induction ls with
  | nil => exact absurd rfl hne
  | cons l ls ih =>
    cases ls with
    | nil =>
      intro ch hch
      have hmem : ch ∈ l := by
        have heq : (joinSep ['\n'] [l]) = l := rfl
        rw [heq] at hch
        rw [← List.head?_reverse] at hch
        have := List.mem_of_mem_head? hch
        simpa using this
      exact ne_nl_of_not_lineBoundary ((h l (by simp)).2 ch hmem)
    | cons l2 ls2 =>
      intro ch hch
      rw [joinSep_cons_ne (by simp)] at hch
      have hj : joinSep ['\n'] (l2 :: ls2) ≠ [] :=
        joinSep_ne_nil (by simp) (fun a ha => (h a (by simp [ha])).1)
      rw [List.getLast?_append] at hch
      rw [Option.or_of_isSome (by
        rw [List.getLast?_isSome]
        exact hj)] at hch
      exact ih (by simp) (fun a ha => h a (by simp [ha])) ch hch

theorem rstripNl_of_last {x : Str} (h : ∀ ch, x.getLast? = some ch → ch ≠ '\n') :
    rstripNl (x ++ ['\n']) = x := by
  cases hx : x.reverse with
  | nil =>
    have hx0 : x = [] := by simpa using congrArg List.reverse hx
    subst hx0; rfl
  | cons a t =>
    have ha : a ≠ '\n' := by
      apply h
      rw [← List.head?_reverse, hx]
      rfl
    unfold rstripNl
    rw [List.reverse_append, hx]
    have hstep : (('\n' :: a :: t).dropWhile fun c => c = '\n') = a :: t := by
      simp [List.dropWhile_cons, ha]
    simp only [List.reverse_cons, List.reverse_nil, List.nil_append, List.singleton_append]
    rw [hstep, ← hx, List.reverse_reverse]

theorem padOf_mem {n : Nat} {c : Char} (h : c ∈ padOf n) : c = ' ' := by
  induction n with
  | zero => cases h
  | succ m ih =>
    simp only [padOf, INDENT, List.cons_append, List.nil_append, List.mem_cons] at h
    rcases h with rfl | rfl | h
    · rfl
    · rfl
    · exact ih h

theorem strip_append_allspace {pre c : Str} (h : ∀ x ∈ pre, pySpace x = true) :
    strip (pre ++ c) = strip c := by
  unfold strip
  rw [List.dropWhile_append_of_pos h]

/-- Tokenizing the reassembled text of well-formed lines returns the lines. -/
theorem tokenize_untok (L : List (Nat × Str)) (hne : L ≠ [])
    (h : ∀ l ∈ L, goodLine l) : tokenize (untok L) = L := by
  have hfne : L.map (fun l => padOf l.1 ++ l.2) ≠ [] := by
    simpa using hne
  have hnl : ∀ l ∈ L.map (fun l => padOf l.1 ++ l.2), ∀ c ∈ l,
      lineBoundary c = false := by
    intro l hl c hc
    obtain ⟨p, hp, rfl⟩ := List.mem_map.mp hl
    rcases List.mem_append.mp hc with hc | hc
    · rw [padOf_mem hc]; decide
    · exact (h p hp).2.1 c hc
  have hsplit : splitlines (untok L) =
      L.map (fun l => padOf l.1 ++ l.2) := by
    unfold untok splitlines
    rw [if_neg (by simp), if_pos (by rw [List.getLast?_concat]; decide)]
    rw [splitlinesGo_joinSep _ hfne hnl]
    exact List.dropLast_concat
  have hstrip : ∀ p ∈ L, strip (padOf p.1 ++ p.2) = strip p.2 :=
    fun p _ => strip_append_allspace (fun x hx => padOf_all_space p.1 x hx)
  have hfilter : (L.map (fun l => padOf l.1 ++ l.2)).filter
      (fun ln => decide (strip ln ≠ [])) = L.map (fun l => padOf l.1 ++ l.2) := by
    rw [List.filter_eq_self]
    intro a ha
    obtain ⟨p, hp, rfl⟩ := List.mem_map.mp ha
    rw [decide_eq_true_eq]
    rw [hstrip p hp]
    exact strip_ne_nil (h p hp).1 (h p hp).2.2
  unfold tokenize
  rw [hsplit, hfilter, List.map_map]
  have hid : ∀ p ∈ L,
      ((fun ln : Str => (countLeadingIndent ln, ln.drop (countLeadingIndent ln * 2))) ∘
        fun l => padOf l.1 ++ l.2) p = p := by
    intro p hp
    have hhead : ∀ x, p.2.head? = some x → x ≠ ' ' := by
      intro x hx hsp
      have := (h p hp).2.2 x hx
      rw [hsp] at this
      revert this; decide
    have hcount : countLeadingIndent (padOf p.1 ++ p.2) = p.1 :=
      countLeadingIndent_pad hhead p.1
    show (countLeadingIndent (padOf p.1 ++ p.2),
      (padOf p.1 ++ p.2).drop (countLeadingIndent (padOf p.1 ++ p.2) * 2)) = p
    rw [hcount, drop_pad]
  rw [List.map_congr_left hid]
  simp

theorem pySpace_toNat {c : Char} (h : pySpace c = true) :
    c.toNat = 32 ∨ (9 ≤ c.toNat ∧ c.toNat ≤ 13) ∨ (28 ≤ c.toNat ∧ c.toNat ≤ 31) ∨
    c.toNat = 0x85 ∨ c.toNat = 0xa0 ∨ c.toNat = 0x1680 ∨
    (0x2000 ≤ c.toNat ∧ c.toNat ≤ 0x200a) ∨ c.toNat = 0x2028 ∨ c.toNat = 0x2029 ∨
    c.toNat = 0x202f ∨ c.toNat = 0x205f ∨ c.toNat = 0x3000 := by
  simpa [pySpace] using h

theorem identCont_toNat {c : Char} (h : identCont c = true) :
    (48 ≤ c.toNat ∧ c.toNat ≤ 57) ∨ (65 ≤ c.toNat ∧ c.toNat ≤ 90) ∨
    (97 ≤ c.toNat ∧ c.toNat ≤ 122) ∨ c.toNat = 95 := by
  simp only [identCont, identStart, Bool.or_eq_true, decide_eq_true_eq] at h
  tauto

theorem identCont_not_space {c : Char} (h : identCont c = true) :
    pySpace c = false := by
  by_contra hc
  have h1 := pySpace_toNat (by simpa using hc)
  have h2 := identCont_toNat h
  omega

theorem identCont_toNat_ne {c : Char} (h : identCont c = true) {m : Nat}
    (hm : m < 48 ∨ (57 < m ∧ m < 65) ∨ (90 < m ∧ m < 97 ∧ m ≠ 95) ∨ 122 < m) :
    c.toNat ≠ m := by
  have h2 := identCont_toNat h
  omega

theorem strip_length_lt_of_head_space {x : Char} {t : Str} (hx : pySpace x = true) :
    (strip (x :: t)).length < (x :: t).length := by
  unfold strip
  rw [List.dropWhile_cons]
  simp only [hx, if_true]
  have h1 : (t.dropWhile pySpace).length ≤ t.length := (List.dropWhile_suffix _).length_le
  have h2 : (((t.dropWhile pySpace).reverse.dropWhile pySpace).reverse).length ≤
      (t.dropWhile pySpace).length := by
    rw [List.length_reverse]
    calc ((t.dropWhile pySpace).reverse.dropWhile pySpace).length
        ≤ (t.dropWhile pySpace).reverse.length := (List.dropWhile_suffix _).length_le
      _ = (t.dropWhile pySpace).length := List.length_reverse _
  simp only [List.length_cons]
  omega

theorem head_not_space_of_strip {t : Str} (hne : t ≠ []) (hs : strip t = t) :
    ∀ x, t.head? = some x → pySpace x = false := by
  intro x hx
  cases t with
  | nil => exact absurd rfl hne
  | cons a t2 =>
    have hax : a = x := by injection hx
    subst hax
    by_contra hc
    have := @strip_length_lt_of_head_space a t2 (by simpa using hc)
    rw [hs] at this
    omega

theorem last_not_space_of_strip {t : Str} (hne : t ≠ []) (hs : strip t = t) :
    ∀ x, t.getLast? = some x → pySpace x = false := by
  intro x hx
  by_contra hc
  have hcx : pySpace x = true := by simpa using hc
  have hd1 : t.dropWhile pySpace ≠ [] := by
    intro hnil
    have : strip t = [] := by
      unfold strip
      rw [hnil]
      rfl
    rw [hs] at this
    exact hne this
  have hlast : (t.dropWhile pySpace).getLast? = some x := by
    have hta : t.takeWhile pySpace ++ t.dropWhile pySpace = t :=
      List.takeWhile_append_dropWhile pySpace t
    conv at hx => rw [← hta]
    rw [List.getLast?_append] at hx
    rwa [Option.or_of_isSome (by rwa [List.getLast?_isSome])] at hx
  cases hrev : (t.dropWhile pySpace).reverse with
  | nil => exact hd1 (by simpa using congrArg List.reverse hrev)
  | cons b rb =>
    have hbx : b = x := by
      have := List.head?_reverse (t.dropWhile pySpace)
      rw [hrev] at this
      rw [hlast] at this
      injection this
    subst hbx
    have hlen : (strip t).length < t.length := by
      unfold strip
      have h0 : ((t.dropWhile pySpace).reverse.dropWhile pySpace).length <
          (t.dropWhile pySpace).reverse.length := by
        rw [hrev, List.dropWhile_cons]
        simp only [hcx, if_true]
        have hsfx : rb.dropWhile pySpace <:+ rb := List.dropWhile_suffix pySpace
        have := hsfx.length_le
        simp only [List.length_cons]
        omega
      have h1 : (t.dropWhile pySpace).length ≤ t.length := (List.dropWhile_suffix _).length_le
      rw [List.length_reverse]
      rw [List.length_reverse] at h0
      omega
    rw [hs] at hlen
    omega

theorem joinSep_not_mem {sep : Str} {ls : List Str} {c : Char}
    (hsep : c ∉ sep) (h : ∀ l ∈ ls, c ∉ l) : c ∉ joinSep sep ls := by
  induction ls with
  | nil => simp [joinSep]
  | cons l ls ih =>
    cases ls with
    | nil => exact h l (by simp)
    | cons l2 ls2 =>
      rw [joinSep_cons_ne (by simp)]
      intro hc
      rcases List.mem_append.mp hc with hc | hc
      · rcases List.mem_append.mp hc with hc | hc
        · exact h l (by simp) hc
        · exact hsep hc
      · exact ih (fun a ha => h a (by simp [ha])) hc

/-- The facts about an identifier key used throughout the parsing proofs. -/
theorem isIdentifier_facts {k : Str} (h : isIdentifier k = true) :
    k ≠ [] ∧ (∀ x, k.head? = some x → identStart x = true) ∧
      ∀ c ∈ k, identCont c = true := by
  cases k with
  | nil => cases h
  | cons a t =>
    simp only [isIdentifier, Bool.and_eq_true, List.all_eq_true] at h
    refine ⟨by simp, ?_, ?_⟩
    · intro x hx
      have : a = x := by injection hx
      subst this
      exact h.1
    · intro c hc
      rcases List.mem_cons.mp hc with rfl | hc
      · simp [identCont, h.1]
      · exact h.2 c hc

/-- The specific character exclusions used for identifier keys while parsing. -/
theorem identCont_ne {c : Char} (h : identCont c = true) :
    c ≠ '\n' ∧ c ≠ ':' ∧ c ≠ '"' ∧ c ≠ '\'' ∧ c ≠ '[' ∧ c ≠ ']' ∧ c ≠ ',' ∧
      c ≠ '-' ∧ c ≠ ' ' := by
  refine ⟨?_, ?_, ?_, ?_, ?_, ?_, ?_, ?_, ?_⟩ <;>
    (intro he; subst he; revert h; decide)

theorem identCont_not_lineBoundary {c : Char} (h : identCont c = true) :
    lineBoundary c = false := by
  have h2 := identCont_toNat h
  exact lineBoundary_false_of_range (by omega) (by omega)

theorem goodScalar_token {v : Value} (h : goodScalar v = true) :
    isPrimitive v = true ∧ toToonPrimitive v ≠ [] ∧
      (∀ c ∈ toToonPrimitive v, lineBoundary c = false) ∧
      strip (toToonPrimitive v) = toToonPrimitive v ∧
      parsePrimitiveToken (toToonPrimitive v) = v := by
  simp only [goodScalar, tokenSafe, Bool.and_eq_true, decide_eq_true_eq,
    List.all_eq_true] at h
  refine ⟨h.1.1, h.1.2.1.1, ?_, h.1.2.2, h.2⟩
  intro c hc
  have hr := h.1.2.1.2 c hc
  exact lineBoundary_false_of_range (by omega) (by omega)

theorem goodList_facts {xs : List Value} (h : goodList xs = true) :
    ∀ x ∈ xs, goodScalar x = true ∧ listTokenSafe (toToonPrimitive x) = true := by
  induction xs with
  | nil => intro x hx; cases hx
  | cons y tl ih =>
    simp only [goodList, Bool.and_eq_true] at h
    intro x hx
    rcases List.mem_cons.mp hx with rfl | hx
    · exact ⟨h.1.1, h.1.2⟩
    · exact ih h.2 x hx

theorem goodEntries_facts {es : List (Str × Value)} (h : goodEntries es = true) :
    ∀ e ∈ es, isIdentifier e.1 = true ∧ e.1 ≠ "_table".toList ∧ goodV e.2 = true := by
  induction es with
  | nil => intro e he; cases he
  | cons p tl ih =>
    obtain ⟨k, v⟩ := p
    simp only [goodEntries, Bool.and_eq_true, decide_eq_true_eq] at h
    intro e he
    rcases List.mem_cons.mp he with rfl | he
    · exact ⟨h.1.1.1, h.1.1.2, h.1.2⟩
    · exact ih h.2 e he

theorem goodEntries_tail {k : Str} {v : Value} {tl : List (Str × Value)}
    (h : goodEntries ((k, v) :: tl) = true) :
    isIdentifier k = true ∧ k ≠ "_table".toList ∧ goodV v = true ∧
      goodEntries tl = true := by
  simp only [goodEntries, Bool.and_eq_true, decide_eq_true_eq] at h
  exact ⟨h.1.1.1, h.1.1.2, h.1.2, h.2⟩

theorem goodList_tail {y : Value} {tl : List Value} (h : goodList (y :: tl) = true) :
    goodScalar y = true ∧ listTokenSafe (toToonPrimitive y) = true ∧
      goodList tl = true := by
  simp only [goodList, Bool.and_eq_true] at h
  exact ⟨h.1.1, h.1.2, h.2⟩

theorem listTokenSafe_facts {tok : Str} (h : listTokenSafe tok = true) :
    tok ≠ [] ∧ (∀ c ∈ tok, lineBoundary c = false) ∧ strip tok = tok ∧
      (∀ c ∈ tok, c ≠ ',' ∧ c ≠ '"' ∧ c ≠ '\'') := by
  simp only [listTokenSafe, tokenSafe, Bool.and_eq_true, decide_eq_true_eq,
    List.all_eq_true] at h
  refine ⟨h.1.1.1, ?_, h.1.2, h.2⟩
  intro c hc
  have hr := h.1.1.2 c hc
  exact lineBoundary_false_of_range (by omega) (by omega)

theorem entryLines_ne_nil {es : List (Str × Value)} (h : es ≠ []) (d : Nat) :
    entryLines es d ≠ [] := by
  cases es with
  | nil => exact absurd rfl h
  | cons p tl =>
    obtain ⟨k, v⟩ := p
    by_cases hp : isPrimitive v = true <;> simp [entryLines, hp]

theorem blockLines_ne_nil (v : Value) (hnp : isPrimitive v = false) (d : Nat) :
    blockLines v d ≠ [] := by
  cases v with
  | list xs =>
    by_cases hx : xs = [] <;> simp [blockLines, hx]
  | dict es =>
    cases es with
    | nil => simp [blockLines]
    | cons p tl => exact entryLines_ne_nil (by simp) d
  | null => cases hnp
  | bool b => cases hnp
  | int n => cases hnp
  | float t => cases hnp
  | str s => cases hnp

theorem goodV_primitive {v : Value} (hp : isPrimitive v = true) :
    goodV v = goodScalar v := by
  cases v <;> first | rfl | cases hp

/-- Goodness of the key-value line of a primitive entry. -/
theorem goodLine_entry_prim {k : Str} {tok : Str} {d : Nat}
    (hkne : k ≠ []) (hkcont : ∀ c ∈ k, identCont c = true)
    (htnl : ∀ c ∈ tok, lineBoundary c = false) :
    goodLine (d, k ++ ':' :: ' ' :: tok) := by
  cases k with
  | nil => exact absurd rfl hkne
  | cons a t =>
    refine ⟨by simp, ?_, ?_⟩
    · intro c hc
      simp only [List.cons_append, List.mem_cons, List.mem_append] at hc
      rcases hc with rfl | hc
      · exact identCont_not_lineBoundary (hkcont c (by simp))
      · rcases hc with hc | rfl | rfl | hc
        · exact identCont_not_lineBoundary (hkcont c (by simp [hc]))
        · decide
        · decide
        · exact htnl c hc
    · intro c hc
      have hca : a = c := by
        simpa using hc
      subst hca
      exact identCont_not_space (hkcont a (by simp))

/-- Goodness of the bare `key:` header line. -/
theorem goodLine_entry_header {k : Str} {d : Nat}
    (hkne : k ≠ []) (hkcont : ∀ c ∈ k, identCont c = true) :
    goodLine (d, k ++ [':']) := by
  cases k with
  | nil => exact absurd rfl hkne
  | cons a t =>
    refine ⟨by simp, ?_, ?_⟩
    · intro c hc
      simp only [List.cons_append, List.mem_cons, List.mem_append] at hc
      rcases hc with rfl | hc
      · exact identCont_not_lineBoundary (hkcont c (by simp))
      · rcases hc with hc | rfl | hc
        · exact identCont_not_lineBoundary (hkcont c (by simp [hc]))
        · decide
        · cases hc
    · intro c hc
      have hca : a = c := by simpa using hc
      subst hca
      exact identCont_not_space (hkcont a (by simp))

theorem entryLines_goodLine
    (es : List (Str × Value))
    (ih : ∀ e ∈ es, goodV e.2 = true → isPrimitive e.2 = false →
      ∀ d, ∀ l ∈ blockLines e.2 d, goodLine l)
    (hg : goodEntries es = true) :
    ∀ d, ∀ l ∈ entryLines es d, goodLine l := by
  induction es with
  | nil => intro d l hl; cases hl
  | cons p tl iht =>
    obtain ⟨k, v⟩ := p
    obtain ⟨hk, hknt, hgv, hgt⟩ := goodEntries_tail hg
    obtain ⟨hkne, hkhead, hkcont⟩ := isIdentifier_facts hk
    intro d l hl
    simp only [entryLines] at hl
    rcases List.mem_append.mp hl with hl | hl
    · by_cases hp : isPrimitive v = true
      · rw [if_pos hp] at hl
        have hl2 : l = (d, k ++ ':' :: ' ' :: toToonPrimitive v) := by simpa using hl
        subst hl2
        have hgs : goodScalar v = true := by rw [← goodV_primitive hp]; exact hgv
        obtain ⟨_, _, htnl, _, _⟩ := goodScalar_token hgs
        exact goodLine_entry_prim hkne hkcont htnl
      · rw [if_neg hp] at hl
        rcases List.mem_cons.mp hl with rfl | hl
        · exact goodLine_entry_header hkne hkcont
        · exact ih (k, v) (by simp) hgv (by simpa using hp) (d + 1) l hl
    · exact iht (fun e he hg2 hp2 => ih e (by simp [he]) hg2 hp2) hgt d l hl

theorem blockLines_goodLine :
    ∀ v, goodV v = true → isPrimitive v = false →
      ∀ d, ∀ l ∈ blockLines v d, goodLine l := by
  apply Value.inductionOn (fun v => goodV v = true → isPrimitive v = false →
    ∀ d, ∀ l ∈ blockLines v d, goodLine l)
  · intro _ hnp; simp [isPrimitive] at hnp
  · intro b _ hnp; simp [isPrimitive] at hnp
  · intro n _ hnp; simp [isPrimitive] at hnp
  · intro t _ hnp; simp [isPrimitive] at hnp
  · intro s _ hnp; simp [isPrimitive] at hnp
  · intro xs _ hg _ d l hl
    cases hx : xs with
    | nil =>
      subst hx
      have hleq : l = (d, "[]".toList) := by simpa [blockLines] using hl
      subst hleq
      refine ⟨?_, ?_, ?_⟩
      · show ("[]".toList : Str) ≠ []
        decide
      · show ∀ c ∈ ("[]".toList : Str), lineBoundary c = false
        decide
      · intro c hc
        injection hc with hc
        subst hc
        decide
    | cons y tl =>
      subst hx
      have hl2 : l = (d, "- ".toList ++
          joinSep [',', ' '] ((y :: tl).map toToonPrimitive)) := by
        simpa [blockLines] using hl
      subst hl2
      refine ⟨by simp, ?_, ?_⟩
      · intro c hc
        simp only [List.mem_append] at hc
        rcases hc with hc | hc
        · rcases List.mem_cons.mp hc with rfl | hc
          · decide
          · have : c = ' ' := by simpa using hc
            subst this; decide
        · by_contra hb
          have hbt : lineBoundary c = true := by simpa using hb
          refine joinSep_not_mem ?_ ?_ hc
          · intro hmem
            rcases List.mem_cons.mp hmem with rfl | hmem
            · exact absurd hbt (by decide)
            · have : c = ' ' := by simpa using hmem
              subst this
              exact absurd hbt (by decide)
          · intro tkn htk hmem
            obtain ⟨x, hx2, rfl⟩ := List.mem_map.mp htk
            have hf := (goodScalar_token (goodList_facts hg x hx2).1).2.2.1 c hmem
            rw [hf] at hbt
            cases hbt
      · intro c hc
        have : '-' = c := by simpa using hc
        subst this
        decide
  · intro es ih hg _ d l hl
    cases hes : es with
    | nil =>
      subst hes
      have hleq : l = (d, "\x7b\x7d".toList) := by simpa [blockLines] using hl
      subst hleq
      refine ⟨?_, ?_, ?_⟩
      · show ("\x7b\x7d".toList : Str) ≠ []
        decide
      · show ∀ c ∈ ("\x7b\x7d".toList : Str), lineBoundary c = false
        decide
      · intro c hc
        injection hc with hc
        subst hc
        decide
    | cons p tl =>
      subst hes
      have hg2 : goodEntries (p :: tl) = true := by
        simp only [goodV, Bool.and_eq_true] at hg
        exact hg.1
      exact entryLines_goodLine (p :: tl) ih hg2 d l hl

theorem joinSep_append {sep : Str} {A B : List Str} (hA : A ≠ []) (hB : B ≠ []) :
    joinSep sep (A ++ B) = joinSep sep A ++ sep ++ joinSep sep B := by
  induction A with
  | nil => exact absurd rfl hA
  | cons a A ih =>
    cases A with
    | nil =>
      rw [show ([a] ++ B) = a :: B from rfl, joinSep_cons_ne hB]
      rfl
    | cons a2 A2 =>
      rw [show ((a :: a2 :: A2) ++ B) = a :: (a2 :: A2 ++ B) from rfl]
      rw [joinSep_cons_ne (by simp), joinSep_cons_ne (by simp)]
      rw [ih (by simp)]
      simp [List.append_assoc]

theorem dumpEntries_ne_nil {es : List (Str × Value)} (h : es ≠ []) (cp : Str)
    (d : Nat) : dumpEntries es cp d ≠ [] := by
  cases es with
  | nil => exact absurd rfl h
  | cons p tl =>
    obtain ⟨k, v⟩ := p
    by_cases hp : isPrimitive v = true <;> simp [dumpEntries, hp]

theorem isDictV_of_primitive {v : Value} (hp : isPrimitive v = true) :
    isDictV v = false := by
  cases v <;> first | rfl | cases hp

/-- The padded flat lines of a good block never end in a newline, so the
`rstrip` in the dict branch of `dumps` removes exactly the final newline of a
nested rendering. -/
theorem rstripNl_untok {v : Value} (hg : goodV v = true)
    (hnp : isPrimitive v = false) (d : Nat) :
    rstripNl (untok (blockLines v d)) =
      joinSep ['\n'] ((blockLines v d).map (fun l => padOf l.1 ++ l.2)) := by
  unfold untok
  apply rstripNl_of_last
  apply getLast?_joinSep_not_nl
  · simpa using blockLines_ne_nil v hnp d
  · intro l hl
    obtain ⟨p, hp, rfl⟩ := List.mem_map.mp hl
    have hgl := blockLines_goodLine v hg hnp d p hp
    constructor
    · intro hc
      have := congrArg List.length hc
      simp only [List.length_append, List.length_nil] at this
      have hne := hgl.1
      cases hp2 : p.2 with
      | nil => exact hne hp2
      | cons a t => rw [hp2] at this; simp at this
    · intro c hc
      rcases List.mem_append.mp hc with hc | hc
      · rw [padOf_mem hc]; decide
      · exact hgl.2.1 c hc

theorem entries_join (es : List (Str × Value))
    (ih : ∀ e ∈ es, goodV e.2 = true → isPrimitive e.2 = false →
      ∀ d, dumps e.2 none d = untok (blockLines e.2 d))
    (hg : goodEntries es = true) (d : Nat) :
    joinSep ['\n'] (dumpEntries es (padOf d) d) =
      joinSep ['\n'] ((entryLines es d).map (fun l => padOf l.1 ++ l.2)) := by
  induction es with
  | nil => rfl
  | cons p tl iht =>
    obtain ⟨k, v⟩ := p
    obtain ⟨hk, _, hgv, hgt⟩ := goodEntries_tail hg
    have hkey : escapeHeaderKey k = k := by simp [escapeHeaderKey, hk]
    have ihtl : joinSep ['\n'] (dumpEntries tl (padOf d) d) =
        joinSep ['\n'] ((entryLines tl d).map (fun l => padOf l.1 ++ l.2)) :=
      iht (fun e he => ih e (by simp [he])) hgt
    by_cases hp : isPrimitive v = true
    · simp only [dumpEntries, entryLines, if_pos hp, hkey, List.map_append,
        List.map_cons, List.map_nil, List.singleton_append]
      cases tl with
      | nil =>
        simp [dumpEntries, entryLines, joinSep, List.append_assoc]
      | cons q tl2 =>
        rw [joinSep_cons_ne (dumpEntries_ne_nil (by simp) _ _)]
        rw [joinSep_cons_ne (by
          simpa using @entryLines_ne_nil (q :: tl2) (by simp) d)]
        rw [ihtl]
        simp [List.append_assoc]
    · have hnp : isPrimitive v = false := by simpa using hp
      have hchild := ih (k, v) (by simp) hgv hnp (d + 1)
      have hflat : rstripNl (dumps v none (d + 1)) =
          joinSep ['\n'] ((blockLines v (d + 1)).map (fun l => padOf l.1 ++ l.2)) := by
        rw [hchild]
        exact rstripNl_untok hgv hnp (d + 1)
      have hBne : (blockLines v (d + 1)).map (fun l => padOf l.1 ++ l.2) ≠ [] := by
        simpa using blockLines_ne_nil v hnp (d + 1)
      simp only [dumpEntries, entryLines, if_neg hp, hkey, List.map_append,
        List.map_cons, List.map_nil, List.cons_append, List.nil_append]
      rw [hflat]
      cases tl with
      | nil =>
        simp only [dumpEntries, entryLines, List.map_nil, List.append_nil]
        rw [joinSep_cons_ne (by simp)]
        rw [joinSep_cons_ne hBne]
        simp [joinSep, List.append_assoc]
      | cons q tl2 =>
        have hEne : (entryLines (q :: tl2) d).map (fun l => padOf l.1 ++ l.2) ≠ [] := by
          simpa using @entryLines_ne_nil (q :: tl2) (by simp) d
        rw [joinSep_cons_ne (by simp)]
        rw [joinSep_cons_ne (dumpEntries_ne_nil (by simp) _ _)]
        rw [joinSep_cons_ne (by
          intro hcon
          rcases List.append_eq_nil.mp hcon with ⟨h1, _⟩
          exact hBne h1)]
        rw [joinSep_append hBne hEne]
        rw [ihtl]
        simp [List.append_assoc]

/-- The rendered text of a good non-primitive value is exactly the reassembled
form of its line list. -/
theorem dumps_untok : ∀ v, goodV v = true → isPrimitive v = false →
    ∀ d, dumps v none d = untok (blockLines v d) := by
  apply Value.inductionOn (fun v => goodV v = true → isPrimitive v = false →
    ∀ d, dumps v none d = untok (blockLines v d))
  · intro _ hnp; simp [isPrimitive] at hnp
  · intro b _ hnp; simp [isPrimitive] at hnp
  · intro n _ hnp; simp [isPrimitive] at hnp
  · intro t _ hnp; simp [isPrimitive] at hnp
  · intro s _ hnp; simp [isPrimitive] at hnp
  · intro xs _ hg _ d
    cases xs with
    | nil =>
      show dumps (.list []) none d = untok (blockLines (.list []) d)
      simp [dumps, blockLines, untok, joinSep, List.append_assoc]
    | cons y tl =>
      have hfacts := goodList_facts (by simpa [goodV] using hg)
      have hyprim : isPrimitive y = true := (goodScalar_token (hfacts y (by simp)).1).1
      have hnotdict : isDictV y = false := isDictV_of_primitive hyprim
      have huni : allDictsUniform (y :: tl) = (false, none) := by
        have : (y :: tl).all isDictV = false := by
          simp [List.all_cons, hnotdict]
        simp [allDictsUniform, this]
      have hallprim : (y :: tl).all isPrimitive = true := by
        rw [List.all_eq_true]
        intro x hx
        exact (goodScalar_token (hfacts x hx).1).1
      show dumps (.list (y :: tl)) none d = _
      simp only [dumps, huni, hallprim, keysTruthy, Bool.false_and, Bool.and_false]
      simp only [List.isEmpty_cons, Bool.false_eq_true, if_false, if_true,
        Bool.and_true, Bool.true_and]
      simp only [blockLines, untok]
      rw [if_neg (by simp : ¬(y :: tl) = [])]
      simp [joinSep, List.append_assoc]
  · intro es ih hg _ d
    cases es with
    | nil =>
      show dumps (.dict []) none d = untok (blockLines (.dict []) d)
      simp [dumps, blockLines, untok, joinSep, List.append_assoc]
    | cons p tl =>
      have hg2 : goodEntries (p :: tl) = true := by
        simp only [goodV, Bool.and_eq_true] at hg
        exact hg.1
      have hj := entries_join (p :: tl) ih hg2 d
      show dumps (.dict (p :: tl)) none d = untok (blockLines (.dict (p :: tl)) d)
      simp only [dumps, List.isEmpty_cons, Bool.false_eq_true, if_false]
      simp only [blockLines, untok]
      rw [show ([] : List Str) ++ dumpEntries (p :: tl) (padOf d) d =
        dumpEntries (p :: tl) (padOf d) d from rfl]
      rw [hj]

theorem tokenize_dumps (v : Value) (hg : goodV v = true)
    (hnp : isPrimitive v = false) (d : Nat) :
    tokenize (dumps v none d) = blockLines v d := by
  rw [dumps_untok v hg hnp d]
  exact tokenize_untok _ (blockLines_ne_nil v hnp d) (blockLines_goodLine v hg hnp d)

theorem mem_of_getLast? {α : Type} {l : List α} {x : α} (h : l.getLast? = some x) :
    x ∈ l := by
  have h2 : l.reverse.head? = some x := by rw [List.head?_reverse]; exact h
  have h3 : x ∈ l.reverse := List.mem_of_mem_head? (by rw [h2]; rfl)
  simpa using h3

/-- An identifier is untouched by `strip`. -/
theorem strip_ident {k : Str} (hk : isIdentifier k = true) : strip k = k := by
  obtain ⟨hne, _, hcont⟩ := isIdentifier_facts hk
  apply strip_eq_self
  · intro c hc
    exact identCont_not_space (hcont c (List.mem_of_mem_head? (by rw [hc]; rfl)))
  · intro c hc
    exact identCont_not_space (hcont c (mem_of_getLast? hc))

theorem strip_cons_space (t : Str) : strip (' ' :: t) = strip t := by
  unfold strip
  rw [List.dropWhile_cons, show pySpace ' ' = true from by decide]
  simp

/-- The unquoted-colon search on a line `key ++ ":" ++ r` with an identifier
key finds the colon right after the key. -/
theorem findColonAux_ident {k : Str} (hkcont : ∀ c ∈ k, identCont c = true)
    (r : Str) : ∀ i, findColonAux (k ++ ':' :: r) i false none = some (i + k.length) := by
  induction k with
  | nil =>
    intro i
    show findColonAux (':' :: r) i false none = some (i + 0)
    unfold findColonAux
    rw [if_neg (by decide : ¬(':' = '"' ∨ ':' = '\''))]
    rw [if_pos (by decide : ':' = ':' ∧ (!false) = true)]
    rfl
  | cons c k2 ih =>
    intro i
    obtain ⟨_, _, hq1, hq2, _⟩ := identCont_ne (hkcont c (by simp))
    have hq3 : ¬(c = '"' ∨ c = '\'') := by tauto
    have hcol : ¬(c = ':' ∧ (!false) = true) := fun hcon =>
      (identCont_ne (hkcont c (by simp))).2.1 hcon.1
    show findColonAux (c :: (k2 ++ ':' :: r)) i false none = some (i + (k2.length + 1))
    unfold findColonAux
    rw [if_neg hq3, if_neg hcol]
    rw [ih (fun x hx => hkcont x (by simp [hx])) (i + 1)]
    congr 1
    omega

theorem findColon_ident {k : Str} (hkcont : ∀ c ∈ k, identCont c = true) (r : Str) :
    findColon (k ++ ':' :: r) = some k.length := by
  unfold findColon
  rw [findColonAux_ident hkcont r 0]
  simp

theorem take_at_key {k : Str} (r : Str) : (k ++ ':' :: r).take k.length = k :=
  List.take_left _ _

theorem drop_after_colon {k : Str} (r : Str) :
    (k ++ ':' :: r).drop (k.length + 1) = r := by
  induction k with
  | nil => simp
  | cons a t ih => simp [ih]

theorem ident_not_mem_bracket {k : Str} (hkcont : ∀ c ∈ k, identCont c = true) :
    ¬('[' ∈ k) := by
  intro hc
  exact (identCont_ne (hkcont '[' hc)).2.2.2.2.1 rfl

theorem head_ne_of_ident {k : Str} {c : Char} {r : Str}
    (hne : k ≠ []) (hkcont : ∀ c ∈ k, identCont c = true)
    (hc : ∀ x, identCont x = true → x ≠ c) : (k ++ r).head? ≠ some c := by
  cases k with
  | nil => exact absurd rfl hne
  | cons a t =>
    intro hcon
    have : a = c := by simpa using hcon
    exact hc a (hkcont a (by simp)) this

/-- What follows a nested block: nothing, or a line strictly shallower than the
block's expected indent. -/
def RestLt (d : Nat) (rest : List Line) : Prop :=
  match rest with
  | [] => True
  | p :: _ => p.1 < d

theorem parseBlock_stop (fuel d : Nat) {rest : List Line} (h : RestLt d rest)
    (arrv : Option (List Value)) (res : List (Str × Value)) :
    parseBlock fuel rest d arrv res = (finishBlock arrv res, rest) := by
  cases rest with
  | nil => cases fuel <;> rfl
  | cons p tl =>
    obtain ⟨i, c⟩ := p
    have hi : i < d := h
    cases fuel with
    | zero => rfl
    | succ f =>
      show parseBlock (f + 1) _ _ _ _ = _
      simp only [parseBlock]
      rw [if_pos (Or.inl hi)]

theorem strip_entry_prim_line {k tok : Str} (hk : isIdentifier k = true)
    (htok : tok ≠ []) (hts : strip tok = tok) :
    strip (k ++ ':' :: ' ' :: tok) = k ++ ':' :: ' ' :: tok := by
  obtain ⟨hkne, _, hkcont⟩ := isIdentifier_facts hk
  apply strip_eq_self
  · intro c hc
    cases k with
    | nil => exact absurd rfl hkne
    | cons a t =>
      have hac : a = c := by simpa using hc
      subst hac
      exact identCont_not_space (hkcont a (by simp))
  · intro c hc
    have hlast : (k ++ ':' :: ' ' :: tok).getLast? = tok.getLast? := by
      rw [List.getLast?_append]
      rw [show (':' :: ' ' :: tok).getLast? = tok.getLast? from by
        rw [List.getLast?_cons_cons]
        cases tok with
        | nil => exact absurd rfl htok
        | cons b tb => rw [List.getLast?_cons_cons]]
      exact Option.or_of_isSome (by rw [List.getLast?_isSome]; exact htok)
    rw [hlast] at hc
    exact last_not_space_of_strip htok hts c hc

theorem strip_entry_header_line {k : Str} (hk : isIdentifier k = true) :
    strip (k ++ [':']) = k ++ [':'] := by
  obtain ⟨hkne, _, hkcont⟩ := isIdentifier_facts hk
  apply strip_eq_self
  · intro c hc
    cases k with
    | nil => exact absurd rfl hkne
    | cons a t =>
      have hac : a = c := by simpa using hc
      subst hac
      exact identCont_not_space (hkcont a (by simp))
  · intro c hc
    have : c = ':' := by
      rw [List.getLast?_concat] at hc
      simpa using hc.symm
    subst this
    decide

theorem entry_line_ne_marker {k : Str} (hk : isIdentifier k = true) (r : Str)
    (hs : strip (k ++ r) = k ++ r) :
    ¬(strip (k ++ r) = "[]".toList) ∧ ¬(strip (k ++ r) = "\x7b\x7d".toList) ∧
      ¬((k ++ r).take 2 = "- ".toList ∨ (k ++ r) = ['-']) := by
  obtain ⟨hkne, _, hkcont⟩ := isIdentifier_facts hk
  cases k with
  | nil => exact absurd rfl hkne
  | cons a t =>
    have ha : identCont a = true := hkcont a (by simp)
    have hane : a ≠ '[' := (identCont_ne ha).2.2.2.2.1
    have hane2 : a ≠ '\x7b' := by
      have h2 := identCont_toNat ha
      intro he; subst he; revert h2; decide
    have hane3 : a ≠ '-' := (identCont_ne ha).2.2.2.2.2.2.2.1
    rw [hs]
    refine ⟨?_, ?_, ?_⟩
    · intro hcon
      have : a = '[' := by
        have := congrArg List.head? hcon
        simpa using this
      exact hane this
    · intro hcon
      have : a = '\x7b' := by
        have := congrArg List.head? hcon
        simpa using this
      exact hane2 this
    · intro hcon
      rcases hcon with hcon | hcon
      · have : a = '-' := by
          have := congrArg List.head? hcon
          simpa [List.take] using this
        exact hane3 this
      · have : a = '-' := by
          have := congrArg List.head? hcon
          simpa using this
        exact hane3 this

/-- One parser step over a primitive entry line `key: tok`. -/
theorem parseBlock_entry_prim (fuel d : Nat) {k tok : Str} (rest : List Line)
    (arrv : Option (List Value)) (res : List (Str × Value))
    (hk : isIdentifier k = true) (htok : tok ≠ []) (hts : strip tok = tok) :
    parseBlock (fuel + 1) ((d, k ++ ':' :: ' ' :: tok) :: rest) d arrv res =
      parseBlock fuel rest d arrv (dictSet res k (parsePrimitiveToken tok)) := by
  obtain ⟨hkne, _, hkcont⟩ := isIdentifier_facts hk
  have hstrip := strip_entry_prim_line hk htok hts
  obtain ⟨hm1, hm2, hm3⟩ := entry_line_ne_marker hk (':' :: ' ' :: tok) hstrip
  have hcolon : findColon (k ++ ':' :: ' ' :: tok) = some k.length :=
    findColon_ident hkcont _
  have htake : (k ++ ':' :: ' ' :: tok).take k.length = k := take_at_key _
  have hdrop : (k ++ ':' :: ' ' :: tok).drop (k.length + 1) = ' ' :: tok :=
    drop_after_colon _
  have hkeyPart : strip ((k ++ ':' :: ' ' :: tok).take k.length) = k := by
    rw [htake]; exact strip_ident hk
  have hvalPart : strip ((k ++ ':' :: ' ' :: tok).drop (k.length + 1)) = tok := by
    rw [hdrop, strip_cons_space, hts]
  have hnb : ¬('[' ∈ k ∧ ']' ∈ k) := fun hcon => ident_not_mem_bracket hkcont hcon.1
  show parseBlock (fuel + 1) _ _ _ _ = _
  simp only [parseBlock]
  rw [if_neg (by omega : ¬(d < d ∨ d > d))]
  rw [if_neg hm1, if_neg hm2, if_neg hm3]
  rw [hcolon]
  simp only [hkeyPart, hvalPart]
  rw [if_neg htok, if_neg hnb]

/-- One parser step over a `key:` header line with an identifier key: a nested
block is parsed at depth `d + 1` and stored under the key. -/
theorem parseBlock_entry_header (fuel d : Nat) {k : Str} (rest : List Line)
    (arrv : Option (List Value)) (res : List (Str × Value))
    (hk : isIdentifier k = true) :
    parseBlock (fuel + 1) ((d, k ++ [':']) :: rest) d arrv res =
      parseBlock fuel (parseBlock fuel rest (d + 1) none []).2 d arrv
        (dictSet res k (parseBlock fuel rest (d + 1) none []).1) := by
  obtain ⟨hkne, _, hkcont⟩ := isIdentifier_facts hk
  have hstrip := strip_entry_header_line hk
  obtain ⟨hm1, hm2, hm3⟩ := entry_line_ne_marker hk [':'] hstrip
  have hcolon : findColon (k ++ [':']) = some k.length := findColon_ident hkcont []
  have hkeyPart : strip ((k ++ [':']).take k.length) = k := by
    rw [show k ++ [':'] = k ++ ':' :: [] from rfl, take_at_key]
    exact strip_ident hk
  have hvalPart : strip ((k ++ [':']).drop (k.length + 1)) = [] := by
    rw [show k ++ [':'] = k ++ ':' :: [] from rfl, drop_after_colon]
    rfl
  have hnb : ¬('[' ∈ k ∧ ']' ∈ k ∧ '\x7b' ∈ k ∧ '\x7d' ∈ k) :=
    fun hcon => ident_not_mem_bracket hkcont hcon.1
  have hlh : ¬('[' ∈ k ∧ k.getLast? = some ']') :=
    fun hcon => ident_not_mem_bracket hkcont hcon.1
  show parseBlock (fuel + 1) _ _ _ _ = _
  simp only [parseBlock]
  rw [if_neg (by omega : ¬(d < d ∨ d > d))]
  rw [if_neg hm1, if_neg hm2, if_neg hm3]
  rw [hcolon]
  simp only [hkeyPart, hvalPart]
  rw [if_pos trivial]
  rw [if_neg hnb]
  rw [if_neg hlh]
  rw [if_neg (fun hcon => hlh hcon.1)]

theorem parseBlock_empty_list (fuel d : Nat) (rest : List Line) :
    parseBlock (fuel + 1) ((d, "[]".toList) :: rest) d none [] =
      (.list [], rest) := by
  simp only [parseBlock]
  rw [if_neg (by omega : ¬(d < d ∨ d > d))]
  rw [if_pos (by decide : strip "[]".toList = "[]".toList)]
  simp

theorem parseBlock_empty_dict (fuel d : Nat) (rest : List Line) :
    parseBlock (fuel + 1) ((d, "\x7b\x7d".toList) :: rest) d none [] =
      (.dict [], rest) := by
  simp only [parseBlock]
  rw [if_neg (by omega : ¬(d < d ∨ d > d))]
  rw [if_neg (by decide : ¬strip "\x7b\x7d".toList = "[]".toList)]
  rw [if_pos (by decide : strip "\x7b\x7d".toList = "\x7b\x7d".toList)]
  simp

/-- One parser step over a scalar sequence line `- v1, v2, ...`. -/
theorem parseBlock_dash_line (fuel d : Nat) {J : Str} (rest : List Line)
    (arrv : Option (List Value)) (res : List (Str × Value))
    (hstrip : strip ('-' :: ' ' :: J) = '-' :: ' ' :: J)
    (hJs : strip J = J) :
    parseBlock (fuel + 1) ((d, '-' :: ' ' :: J) :: rest) d arrv res =
      (if ',' ∈ J ∧ ¬(J.head? = some '"' ∨ J.head? = some '\'') then
        parseBlock fuel rest d
          (some ((arrv.getD []) ++ (splitCsvLike J).map parsePrimitiveToken)) res
      else
        parseBlock fuel rest d
          (some ((arrv.getD []) ++ [parsePrimitiveToken J])) res) := by
  have hm1 : ¬(strip ('-' :: ' ' :: J) = "[]".toList) := by
    rw [hstrip]; intro hcon
    have := congrArg List.head? hcon
    simp at this
  have hm2 : ¬(strip ('-' :: ' ' :: J) = "\x7b\x7d".toList) := by
    rw [hstrip]; intro hcon
    have := congrArg List.head? hcon
    simp at this
  show parseBlock (fuel + 1) _ _ _ _ = _
  simp only [parseBlock]
  rw [if_neg (by omega : ¬(d < d ∨ d > d))]
  rw [if_neg hm1, if_neg hm2]
  rw [if_pos (Or.inl (show ('-' :: ' ' :: J).take 2 = "- ".toList from rfl))]
  rw [if_neg (by simp : ¬('-' :: ' ' :: J) = ['-'])]
  rw [show ('-' :: ' ' :: J).drop 2 = J from rfl]
  rw [hJs]

theorem dictSet_append {es : List (Str × Value)} {k : Str} {v : Value}
    (h : ∀ a ∈ es, a.1 ≠ k) : dictSet es k v = es ++ [(k, v)] := by
  unfold dictSet
  rw [if_neg ?hcond]
  case hcond =>
    rw [List.any_eq_true]
    rintro ⟨a, ha, hak⟩
    exact h a ha (by simpa using hak)

theorem finishBlock_dict {es : List (Str × Value)}
    (h : ∀ e ∈ es, e.1 ≠ "_table".toList) : finishBlock none es = .dict es := by
  cases es with
  | nil => rfl
  | cons p tl =>
    obtain ⟨k, v⟩ := p
    cases tl with
    | nil =>
      show finishBlock none [(k, v)] = _
      simp only [finishBlock]
      rw [if_neg (h (k, v) (by simp))]
    | cons q tl2 => rfl

theorem head?_joinSep {sep : Str} {l : Str} (ls : List Str) (hl : l ≠ []) :
    (joinSep sep (l :: ls)).head? = l.head? := by
  cases ls with
  | nil => rfl
  | cons a t =>
    rw [joinSep_cons_ne (by simp)]
    cases l with
    | nil => exact absurd rfl hl
    | cons x xs => simp

theorem getLast?_joinSep_mem {sep : Str} (ls : List Str) (hne : ls ≠ [])
    (h : ∀ l ∈ ls, l ≠ []) :
    ∃ l ∈ ls, (joinSep sep ls).getLast? = l.getLast? := by
  induction ls with
  | nil => exact absurd rfl hne
  | cons l tl ih =>
    cases tl with
    | nil => exact ⟨l, by simp, rfl⟩
    | cons a t2 =>
      obtain ⟨m, hm, he⟩ := ih (by simp) (fun x hx => h x (by simp [hx]))
      refine ⟨m, List.mem_cons_of_mem l hm, ?_⟩
      rw [joinSep_cons_ne (by simp)]
      rw [List.getLast?_append]
      rw [Option.or_of_isSome (by
        rw [List.getLast?_isSome]
        exact joinSep_ne_nil (by simp) (fun x hx => h x (by simp [hx])))]
      exact he

/-- The CSV splitter consumes a comma- and quote-free segment into its
accumulator. -/
theorem splitCsvAux_consume (t : Str) (r : Str) (parts : List Str) :
    ∀ cur, (∀ c ∈ t, c ≠ ',' ∧ c ≠ '"' ∧ c ≠ '\'') →
      splitCsvAux (t ++ r) false none cur parts =
        splitCsvAux r false none (cur ++ t) parts := by
  induction t with
  | nil => intro cur _; simp
  | cons c tl ih =>
    intro cur ht
    obtain ⟨hc1, hc2, hc3⟩ := ht c (by simp)
    show splitCsvAux (c :: (tl ++ r)) false none cur parts = _
    simp only [splitCsvAux]
    rw [if_neg (by tauto : ¬(c = '"' ∨ c = '\''))]
    rw [if_neg (fun hcon : c = ',' ∧ (!false) = true => hc1 hcon.1)]
    rw [ih (cur ++ [c]) (fun x hx => ht x (by simp [hx]))]
    simp

/-- Splitting a comma-space join of simple tokens recovers the tokens. -/
theorem splitCsvAux_joinSep (ts : List Str) :
    ∀ parts cur, ts ≠ [] → (∀ t ∈ ts, listTokenSafe t = true) →
      (∀ x ∈ cur, pySpace x = true) →
      splitCsvAux (joinSep [',', ' '] ts) false none cur parts = parts ++ ts := by
  induction ts with
  | nil => intro parts cur hne _ _; exact absurd rfl hne
  | cons t tl ih =>
    intro parts cur _ hsafe hcur
    obtain ⟨htne, _, htstrip, htchars⟩ := listTokenSafe_facts (hsafe t (by simp))
    have hct : strip (cur ++ t) = t := by
      rw [strip_append_allspace hcur, htstrip]
    cases tl with
    | nil =>
      show splitCsvAux (joinSep [',', ' '] [t]) false none cur parts = parts ++ [t]
      rw [show joinSep [',', ' '] [t] = t ++ [] from by simp [joinSep]]
      rw [splitCsvAux_consume t [] parts cur htchars]
      show (if strip (cur ++ t) ≠ [] then parts ++ [strip (cur ++ t)] else parts) =
        parts ++ [t]
      rw [hct]
      rw [if_pos htne]
    | cons t2 tl2 =>
      rw [joinSep_cons_ne (by simp)]
      rw [show t ++ [',', ' '] ++ joinSep [',', ' '] (t2 :: tl2) =
        t ++ (',' :: ' ' :: joinSep [',', ' '] (t2 :: tl2)) from by simp]
      rw [splitCsvAux_consume t _ parts cur htchars]
      rw [show splitCsvAux (',' :: (' ' :: joinSep [',', ' '] (t2 :: tl2)))
          false none (cur ++ t) parts =
        splitCsvAux (joinSep [',', ' '] (t2 :: tl2)) false none [' ']
          (parts ++ [strip (cur ++ t)]) from rfl]
      rw [hct]
      rw [ih (parts ++ [t]) [' '] (by simp)
        (fun x hx => hsafe x (by simp [hx])) (by decide)]
      simp

theorem splitCsvLike_joinSep (ts : List Str) (hne : ts ≠ [])
    (hsafe : ∀ t ∈ ts, listTokenSafe t = true) :
    splitCsvLike (joinSep [',', ' '] ts) = ts := by
  unfold splitCsvLike
  have := splitCsvAux_joinSep ts [] [] hne hsafe (by simp)
  simpa using this

theorem RestLt_cons {d i : Nat} {c : Str} {tl : List Line} (h : i < d) :
    RestLt d ((i, c) :: tl) := h

theorem RestLt_entryLines (d : Nat) (es : List (Str × Value)) {rest : List Line}
    (hrest : RestLt d rest) : RestLt (d + 1) (entryLines es d ++ rest) := by
  cases es with
  | nil =>
    simp only [entryLines, List.nil_append]
    cases rest with
    | nil => trivial
    | cons p tl =>
      obtain ⟨i, c⟩ := p
      exact RestLt_cons (Nat.lt_succ_of_lt hrest)
  | cons p tl =>
    obtain ⟨k, v⟩ := p
    by_cases hp : isPrimitive v = true
    · simp only [entryLines, if_pos hp, List.cons_append, List.nil_append]
      exact RestLt_cons (Nat.lt_succ_self d)
    · simp only [entryLines, if_neg hp, List.cons_append]
      exact RestLt_cons (Nat.lt_succ_self d)

/-- The round-trip property of a non-primitive block: `parse_block` consumes
exactly the lines `dumps` produced and reconstructs the value. -/
def BlockRT (v : Value) : Prop :=
  goodV v = true → isPrimitive v = false →
    ∀ (d : Nat) (rest : List Line) (fuel : Nat),
      (blockLines v d).length + rest.length < fuel → RestLt d rest →
      parseBlock fuel (blockLines v d ++ rest) d none [] = (v, rest)

/-- The dict-entry loop of `parse_block`: a run of entry lines at one depth
accumulates the entries in order into the result dict. -/
theorem parseBlock_entryLoop (es : List (Str × Value)) :
    (∀ e ∈ es, BlockRT e.2) →
    ∀ (acc : List (Str × Value)) (d : Nat) (rest : List Line) (fuel : Nat),
      goodEntries es = true →
      (es.map (fun e => e.1)).Nodup →
      (entryLines es d).length + rest.length < fuel →
      RestLt d rest →
      (∀ e ∈ es, ∀ a ∈ acc, a.1 ≠ e.1) →
      parseBlock fuel (entryLines es d ++ rest) d none acc =
        (finishBlock none (acc ++ es), rest) := by
  induction es with
  | nil =>
    intro _ acc d rest fuel _ _ _ hrest _
    simp only [entryLines, List.nil_append, List.append_nil]
    exact parseBlock_stop fuel d hrest none acc
  | cons p tl iht =>
    obtain ⟨k, v⟩ := p
    intro hbc acc d rest fuel hg hnd hfuel hrest hdisj
    obtain ⟨hk, hkt, hgv, hgt⟩ := goodEntries_tail hg
    have hnd2 : k ∉ tl.map (fun e => e.1) ∧ (tl.map (fun e => e.1)).Nodup :=
      List.nodup_cons.mp (show (k :: tl.map (fun e => e.1)).Nodup from hnd)
    have hknotin : ∀ e ∈ tl, k ≠ e.1 := by
      intro e he hke
      exact hnd2.1 (by rw [hke]; exact List.mem_map_of_mem _ he)
    have hdisj2 : ∀ e ∈ tl, ∀ a ∈ acc ++ [(k, v)], a.1 ≠ e.1 := by
      intro e he a ha
      rcases List.mem_append.mp ha with ha | ha
      · exact hdisj e (List.mem_cons_of_mem _ he) a ha
      · have hav : a = (k, v) := by simpa using ha
        subst hav
        exact hknotin e he
    have hacck : ∀ a ∈ acc, a.1 ≠ k := hdisj (k, v) (by simp)
    have hbctl : ∀ e ∈ tl, BlockRT e.2 :=
      fun e he => hbc e (List.mem_cons_of_mem _ he)
    by_cases hp : isPrimitive v = true
    · have hgs : goodScalar v = true := by rw [← goodV_primitive hp]; exact hgv
      obtain ⟨_, htokne, _, htoks, htokparse⟩ := goodScalar_token hgs
      have hE : entryLines ((k, v) :: tl) d =
          (d, k ++ ':' :: ' ' :: toToonPrimitive v) :: entryLines tl d := by
        simp [entryLines, hp]
      rw [hE]
      cases fuel with
      | zero => exact absurd hfuel (by omega)
      | succ f =>
        rw [List.cons_append]
        rw [parseBlock_entry_prim f d (entryLines tl d ++ rest) none acc hk
          htokne htoks]
        rw [htokparse]
        rw [dictSet_append hacck]
        have hlen : (entryLines tl d).length + rest.length < f := by
          have := congrArg List.length hE
          simp only [List.length_cons] at this
          omega
        rw [iht hbctl (acc ++ [(k, v)]) d rest f hgt hnd2.2 hlen hrest hdisj2]
        simp
    · have hpn : isPrimitive v = false := Bool.eq_false_iff.mpr hp
      have hE : entryLines ((k, v) :: tl) d =
          (d, k ++ [':']) :: (blockLines v (d + 1) ++ entryLines tl d) := by
        simp [entryLines, hpn]
      rw [hE]
      cases fuel with
      | zero => exact absurd hfuel (by omega)
      | succ f =>
        rw [List.cons_append, List.append_assoc]
        rw [parseBlock_entry_header f d
          (blockLines v (d + 1) ++ (entryLines tl d ++ rest)) none acc hk]
        have hlenE := congrArg List.length hE
        simp only [List.length_cons, List.length_append] at hlenE
        have hlen1 : (blockLines v (d + 1)).length +
            (entryLines tl d ++ rest).length < f := by
          simp only [List.length_append]
          omega
        have hrest2 : RestLt (d + 1) (entryLines tl d ++ rest) :=
          RestLt_entryLines d tl hrest
        have hb := hbc (k, v) (by simp) hgv hpn (d + 1)
          (entryLines tl d ++ rest) f hlen1 hrest2
        have hb1 : (parseBlock f (blockLines v (d + 1) ++
            (entryLines tl d ++ rest)) (d + 1) none []).1 = v := by rw [hb]
        have hb2 : (parseBlock f (blockLines v (d + 1) ++
            (entryLines tl d ++ rest)) (d + 1) none []).2 =
            entryLines tl d ++ rest := by rw [hb]
        rw [hb1, hb2]
        rw [dictSet_append hacck]
        have hlen2 : (entryLines tl d).length + rest.length < f := by omega
        rw [iht hbctl (acc ++ [(k, v)]) d rest f hgt hnd2.2 hlen2 hrest hdisj2]
        simp

theorem getLast?_cons_cons_ne {a b : Char} {t : Str} (ht : t ≠ []) :
    (a :: b :: t).getLast? = t.getLast? := by
  cases t with
  | nil => exact absurd rfl ht
  | cons x xs =>
    rw [List.getLast?_cons_cons, List.getLast?_cons_cons]

/-- Every good value's block round-trips through the parser. -/
theorem blockRT_all : ∀ v, BlockRT v := by
  apply Value.inductionOn BlockRT
  · intro _ hnp; exact absurd hnp (by decide)
  · intro b _ hnp; simp [isPrimitive] at hnp
  · intro n _ hnp; simp [isPrimitive] at hnp
  · intro t _ hnp; simp [isPrimitive] at hnp
  · intro s _ hnp; simp [isPrimitive] at hnp
  · intro xs _ hg hnp d rest fuel hfuel hrest
    cases xs with
    | nil =>
      have hB : blockLines (.list []) d = [(d, "[]".toList)] := rfl
      rw [hB] at hfuel ⊢
      cases fuel with
      | zero => exact absurd hfuel (by omega)
      | succ f =>
        rw [List.singleton_append]
        rw [parseBlock_empty_list f d rest]
    | cons y tl =>
      have hgl : goodList (y :: tl) = true := hg
      have hTfacts : ∀ x ∈ (y :: tl), goodScalar x = true ∧
          listTokenSafe (toToonPrimitive x) = true := goodList_facts hgl
      have hTsafe : ∀ t ∈ (y :: tl).map toToonPrimitive, listTokenSafe t = true := by
        intro t ht
        obtain ⟨x, hx, rfl⟩ := List.mem_map.mp ht
        exact (hTfacts x hx).2
      have hTne : ∀ t ∈ (y :: tl).map toToonPrimitive, t ≠ [] :=
        fun t ht => (listTokenSafe_facts (hTsafe t ht)).1
      have hyne : toToonPrimitive y ≠ [] := hTne _ (by simp)
      have hJne : joinSep [',', ' '] ((y :: tl).map toToonPrimitive) ≠ [] :=
        joinSep_ne_nil (by simp) hTne
      have hJlastns : ∀ c,
          (joinSep [',', ' '] ((y :: tl).map toToonPrimitive)).getLast? = some c →
          pySpace c = false := by
        intro c hc
        obtain ⟨l, hl, he⟩ :=
          getLast?_joinSep_mem ((y :: tl).map toToonPrimitive) (by simp) hTne
        rw [he] at hc
        exact last_not_space_of_strip (hTne _ hl)
          (listTokenSafe_facts (hTsafe _ hl)).2.2.1 c hc
      have hJheadns : ∀ c,
          (joinSep [',', ' '] ((y :: tl).map toToonPrimitive)).head? = some c →
          pySpace c = false := by
        intro c hc
        have hc2 : (joinSep [',', ' ']
            (toToonPrimitive y :: tl.map toToonPrimitive)).head? = some c := hc
        rw [head?_joinSep (tl.map toToonPrimitive) hyne] at hc2
        exact head_not_space_of_strip hyne
          (listTokenSafe_facts (hTsafe _ (by simp))).2.2.1 c hc2
      have hJstrip : strip (joinSep [',', ' '] ((y :: tl).map toToonPrimitive)) =
          joinSep [',', ' '] ((y :: tl).map toToonPrimitive) :=
        strip_eq_self hJheadns hJlastns
      have hlineStrip :
          strip ('-' :: ' ' :: joinSep [',', ' '] ((y :: tl).map toToonPrimitive)) =
          '-' :: ' ' :: joinSep [',', ' '] ((y :: tl).map toToonPrimitive) := by
        apply strip_eq_self
        · intro c hc
          have : '-' = c := by simpa using hc
          subst this; decide
        · intro c hc
          rw [getLast?_cons_cons_ne hJne] at hc
          exact hJlastns c hc
      have hB : blockLines (.list (y :: tl)) d =
          [(d, '-' :: ' ' :: joinSep [',', ' '] ((y :: tl).map toToonPrimitive))] := by
        show (if (y :: tl : List Value) = [] then [(d, "[]".toList)]
          else [(d, "- ".toList ++
            joinSep [',', ' '] ((y :: tl).map toToonPrimitive))]) = _
        rw [if_neg (show ¬(y :: tl : List Value) = [] from by simp)]
        rfl
      rw [hB] at hfuel ⊢
      cases fuel with
      | zero => exact absurd hfuel (by omega)
      | succ f =>
        rw [List.singleton_append]
        rw [parseBlock_dash_line f d rest none [] hlineStrip hJstrip]
        cases tl with
        | nil =>
          have hJy : joinSep [',', ' '] ([y].map toToonPrimitive) =
            toToonPrimitive y := rfl
          rw [if_neg ?cnd1]
          case cnd1 =>
            rintro ⟨hcm, -⟩
            rw [hJy] at hcm
            exact ((listTokenSafe_facts (hTsafe _ (by simp))).2.2.2 ',' hcm).1 rfl
          rw [hJy]
          rw [(goodScalar_token (hTfacts y (by simp)).1).2.2.2.2]
          rw [show (none : Option (List Value)).getD [] ++ [y] = [y] from rfl]
          rw [parseBlock_stop f d hrest (some [y]) []]
          rfl
        | cons y2 tl2 =>
          have hJsplit : joinSep [',', ' '] ((y :: y2 :: tl2).map toToonPrimitive) =
              toToonPrimitive y ++ [',', ' '] ++
                joinSep [',', ' '] ((y2 :: tl2).map toToonPrimitive) :=
            joinSep_cons_ne (by simp)
          rw [if_pos ?cnd2]
          case cnd2 =>
            constructor
            · rw [hJsplit]; simp
            · intro hq
              have hh : (joinSep [',', ' '] (toToonPrimitive y ::
                  (y2 :: tl2).map toToonPrimitive)).head? =
                  (toToonPrimitive y).head? :=
                head?_joinSep ((y2 :: tl2).map toToonPrimitive) hyne
              rcases hq with hq | hq
              · have hq2 : (joinSep [',', ' '] (toToonPrimitive y ::
                    (y2 :: tl2).map toToonPrimitive)).head? = some '"' := hq
                rw [hh] at hq2
                have hmem : '"' ∈ toToonPrimitive y :=
                  List.mem_of_mem_head? (by rw [hq2]; rfl)
                exact ((listTokenSafe_facts
                  (hTsafe _ (by simp))).2.2.2 '"' hmem).2.1 rfl
              · have hq2 : (joinSep [',', ' '] (toToonPrimitive y ::
                    (y2 :: tl2).map toToonPrimitive)).head? = some '\'' := hq
                rw [hh] at hq2
                have hmem : '\'' ∈ toToonPrimitive y :=
                  List.mem_of_mem_head? (by rw [hq2]; rfl)
                exact ((listTokenSafe_facts
                  (hTsafe _ (by simp))).2.2.2 '\'' hmem).2.2 rfl
          rw [splitCsvLike_joinSep _ (by simp) hTsafe]
          rw [List.map_map]
          have hmapid : (y :: y2 :: tl2).map
              (parsePrimitiveToken ∘ toToonPrimitive) = y :: y2 :: tl2 := by
            have h1 : (y :: y2 :: tl2).map
                (parsePrimitiveToken ∘ toToonPrimitive) =
                (y :: y2 :: tl2).map id :=
              List.map_congr_left
                (fun x hx => (goodScalar_token (hTfacts x hx).1).2.2.2.2)
            rw [h1, List.map_id]
          rw [hmapid]
          rw [show (none : Option (List Value)).getD [] ++ (y :: y2 :: tl2) =
            y :: y2 :: tl2 from rfl]
          rw [parseBlock_stop f d hrest (some (y :: y2 :: tl2)) []]
          rfl
  · intro es ih hg hnp d rest fuel hfuel hrest
    cases es with
    | nil =>
      cases fuel with
      | zero => exact absurd hfuel (by omega)
      | succ f =>
        have hB : blockLines (.dict []) d = [(d, "\x7b\x7d".toList)] := rfl
        rw [hB]
        rw [List.singleton_append]
        rw [parseBlock_empty_dict f d rest]
    | cons p tl =>
      have hg2 : goodEntries (p :: tl) = true ∧
          ((p :: tl).map (fun e => e.1)).Nodup := by
        have hgb : (goodEntries (p :: tl) &&
            decide (((p :: tl).map (fun e => e.1)).Nodup)) = true := hg
        rw [Bool.and_eq_true, decide_eq_true_eq] at hgb
        exact hgb
      have hB : blockLines (.dict (p :: tl)) d = entryLines (p :: tl) d := rfl
      rw [hB] at hfuel ⊢
      rw [parseBlock_entryLoop (p :: tl) ih [] d rest fuel hg2.1 hg2.2 hfuel
        hrest (by simp)]
      rw [List.nil_append]
      rw [finishBlock_dict (fun e he => (goodEntries_facts hg2.1 e he).2.1)]

/-- Round-trip identity on the good fragment: parse-back of a rendered good
container value. -/
theorem loads_dumps_good (v : Value) (hg : goodV v = true)
    (hnp : isPrimitive v = false) : loads (dumps v none 0) = v := by
  unfold loads
  rw [tokenize_dumps v hg hnp 0]
  have hb := blockRT_all v hg hnp 0 [] ((blockLines v 0).length + 1)
    (by simp) trivial
  rw [List.append_nil] at hb
  show (parseBlock ((blockLines v 0).length + 1) (blockLines v 0) 0 none []).1 = v
  rw [hb]

/-- C1: for every good container value (a mapping with distinct identifier
keys other than `_table`, a sequence of simple scalars, with scalar leaves
whose printable-ASCII tokens survive the scalar codec), `loads (dumps v)`
returns `v` exactly. -/
theorem C1_roundtrip_good (v : Value) (hg : goodV v = true)
    (hnp : isPrimitive v = false) : loads (dumps v none 0) = v :=
  loads_dumps_good v hg hnp

theorem C1_roundtrip_good_witness :
    goodV (.dict [("a".toList, .int 1),
      ("b".toList, .list [.int 2, .str "x".toList]),
      ("c".toList, .dict [("d".toList, .bool true)])]) = true ∧
    isPrimitive (.dict [("a".toList, .int 1),
      ("b".toList, .list [.int 2, .str "x".toList]),
      ("c".toList, .dict [("d".toList, .bool true)])]) = false ∧
    loads (dumps (.dict [("a".toList, .int 1),
      ("b".toList, .list [.int 2, .str "x".toList]),
      ("c".toList, .dict [("d".toList, .bool true)])]) none 0) =
      .dict [("a".toList, .int 1),
        ("b".toList, .list [.int 2, .str "x".toList]),
        ("c".toList, .dict [("d".toList, .bool true)])] :=
  ⟨by decide, by decide,
    C1_roundtrip_good (.dict [("a".toList, .int 1),
      ("b".toList, .list [.int 2, .str "x".toList]),
      ("c".toList, .dict [("d".toList, .bool true)])]) (by decide) (by decide)⟩

/-! ## Claim C8: depth limits -/

/-- A dict chain of arbitrary nesting depth. -/
def nestedChain : Nat → Value
  | 0 => .dict []
  | n + 1 => .dict [("a".toList, nestedChain n)]

theorem goodV_nestedChain (n : Nat) : goodV (nestedChain n) = true := by
  induction n with
  | zero => decide
  | succ m ih =>
    show (goodEntries [("a".toList, nestedChain m)] &&
      decide (([("a".toList, nestedChain m)].map (fun e => e.1)).Nodup)) = true
    simp only [goodEntries, Bool.and_eq_true, decide_eq_true_eq]
    exact ⟨⟨⟨⟨by decide, by decide⟩, ih⟩, trivial⟩, by simp⟩

theorem isPrimitive_nestedChain (n : Nat) :
    isPrimitive (nestedChain n) = false := by
  cases n <;> rfl

theorem untok_ne_nil (L : List (Nat × Str)) : untok L ≠ [] := by
  unfold untok
  simp

/-- C8 counterexample: at nesting depth 60, far into where a depth limit would
act, both the encoder and the parser succeed and round-trip; neither direction
produces any error — no depth check or `DepthExceeded` exists in the code. -/
theorem C8_counterexample :
    loads (dumps (nestedChain 60) none 0) = nestedChain 60 :=
  loads_dumps_good _ (goodV_nestedChain 60) (isPrimitive_nestedChain 60)

/-- C8 (amended): neither `dumps` nor `loads` imposes any maximum nesting
depth; for every depth `n`, encoding the depth-`n` dict chain yields nonempty
text and decoding it returns the value, with no error of any kind. -/
theorem C8_unbounded_depth (n : Nat) :
    dumps (nestedChain n) none 0 ≠ [] ∧
    loads (dumps (nestedChain n) none 0) = nestedChain n :=
  ⟨by
    rw [dumps_untok (nestedChain n) (goodV_nestedChain n)
      (isPrimitive_nestedChain n) 0]
    exact untok_ne_nil _,
   loads_dumps_good (nestedChain n) (goodV_nestedChain n)
     (isPrimitive_nestedChain n)⟩

end PyToon
